import Mathlib

/-!
# i18ngo: translation lookup, locale switching and placeholder substitution

A shallow embedding of `i18ngo.go` (`New`, `Context.T`, `Context.ChangeLocale`,
`Context.CurrentLocale`) together with the parts of Go's `strings` and `fmt`
packages that the code calls.

Modelling conventions:
* a Go `string` is the list of its characters (`GoString`); the documents and
  paths are taken to be valid UTF-8, where substring search by bytes and by
  characters coincide;
* a Go `map[string]interface{}` is an association list with distinct keys,
  read by first match; for the options map the list order is the order in
  which `range` visits the entries in the call at hand;
* a run-time panic is an explicit `Except.error`;
* the read/write mutex and the debug log lines are not part of the model: the
  embedding is sequential and the log is write-only.
-/

namespace I18nGo

/-- Go `string`, as the list of its characters. -/
abbrev GoString := List Char

/-! ## Package `strings` -/

/-- Library function `strings.Index`: position of the first occurrence of `substr` in `s`. -/
def Index : GoString → GoString → Option Nat
  | [], substr => if substr = [] then some 0 else none
  | c :: cs, substr =>
    if substr.isPrefixOf (c :: cs) then some 0
    else (Index cs substr).map (· + 1)

/-- Library function `strings.explode` with `n = -1`: one string per character. -/
def explode (s : GoString) : List GoString :=
  s.map (fun c => [c])

/-- The loop of `strings.genSplit` for a non-empty separator: cut at the first
occurrence of `sep`, continue behind it. The counter bounds the number of
cuts, as `n` does in the library (`n ≤ len(s) + 1`). -/
def genSplit (sep : GoString) : Nat → GoString → List GoString
  | 0, s => [s]
  | n + 1, s =>
    match Index s sep with
    | none => [s]
    | some m => s.take m :: genSplit sep n (s.drop (m + sep.length))

/-- Library function `strings.Split(s, sep)`. -/
def Split (s sep : GoString) : List GoString :=
  if sep = [] then explode s else genSplit sep s.length s

/-- Library function `strings.Join(elems, sep)`. -/
def Join : List GoString → GoString → GoString
  | [], _ => []
  | [a], _ => a
  | a :: b :: rest, sep => a ++ sep ++ Join (b :: rest) sep

/-- The loop of `strings.Replace` for a non-empty `old`: copy up to the first
occurrence of `old`, write `new`, continue behind the occurrence. -/
def replaceLoop (old new : GoString) : Nat → GoString → GoString
  | 0, s => s
  | n + 1, s =>
    match Index s old with
    | none => s
    | some j => s.take j ++ new ++ replaceLoop old new n (s.drop (j + old.length))

/-- Library function `strings.ReplaceAll(s, old, new)`. With an empty `old` the library writes
`new` before every character and at the end. -/
def ReplaceAll (s old new : GoString) : GoString :=
  if old = new then s
  else if old = [] then new ++ s.flatMap (fun c => c :: new)
  else replaceLoop old new s.length s

/-! ## Values and `fmt.Sprintf("%v", _)` -/

/-- A dynamically typed value (`interface{}`): what `json.Unmarshal` stores in
a `map[string]interface{}`. The type `ν` stands for the scalars other than
strings and booleans (for a decoded document: `float64`). -/
inductive Value (ν : Type) where
  | null
  | bool (b : Bool)
  | number (n : ν)
  | str (s : GoString)
  | array (xs : List (Value ν))
  | object (kvs : List (GoString × Value ν))

/-- Byte-wise `<` on strings, the order in which `fmt` prints map keys. -/
def strLt : GoString → GoString → Bool
  | [], [] => false
  | [], _ :: _ => true
  | _ :: _, [] => false
  | a :: as, b :: bs => a.toNat < b.toNat || (a == b && strLt as bs)

/-- Insert one rendered map entry, keeping the keys ascending. -/
def insertEntry (e : GoString × GoString) : List (GoString × GoString) → List (GoString × GoString)
  | [] => [e]
  | x :: xs => if strLt x.1 e.1 then x :: insertEntry e xs else e :: x :: xs

/-- Sort rendered map entries by key. -/
def sortEntries : List (GoString × GoString) → List (GoString × GoString)
  | [] => []
  | e :: es => insertEntry e (sortEntries es)

variable {ν : Type}

mutual
/-- Rendering `fmt.Sprintf("%v", v)`; `fmtNum` is the library's rendering of the scalars
in `ν`. -/
def Value.render (fmtNum : ν → GoString) : Value ν → GoString
  | .null => "<nil>".toList
  | .bool b => if b then "true".toList else "false".toList
  | .number n => fmtNum n
  | .str s => s
  | .array xs => "[".toList ++ Join (renderList fmtNum xs) " ".toList ++ "]".toList
  | .object kvs =>
    "map[".toList
      ++ Join ((sortEntries (renderEntries fmtNum kvs)).map (fun e => e.1 ++ ":".toList ++ e.2))
          " ".toList
      ++ "]".toList
/-- The elements of a slice, each rendered. -/
def renderList (fmtNum : ν → GoString) : List (Value ν) → List GoString
  | [] => []
  | v :: vs => Value.render fmtNum v :: renderList fmtNum vs
/-- The entries of a map, each value rendered. -/
def renderEntries (fmtNum : ν → GoString) : List (GoString × Value ν) → List (GoString × GoString)
  | [] => []
  | (k, v) :: kvs => (k, Value.render fmtNum v) :: renderEntries fmtNum kvs
end

/-! ## Data model (`i18ngo.go`, lines 13-41) -/

/-- Raw document bytes (`[]byte`). -/
abbrev Bytes := List UInt8

/-- A decoded document: `map[string]interface{}`. The nil map and the empty
map are both the empty list (they read and print alike). -/
abbrev Tree (ν : Type) := List (GoString × Value ν)

/-- Struct `Locale`. -/
structure Locale (ν : Type) where
  locale : GoString
  data : Tree ν

/-- Struct `LocaleOptions`. -/
structure LocaleOptions where
  Locale : GoString
  File : Bytes

/-- Struct `Options`. -/
structure Options where
  DefaultLocale : GoString
  Locales : List LocaleOptions
  Debug : Bool
  Separator : GoString

/-- Struct `Context`, without the mutex. The callback field `onLocaleChange`
is kept as a flag (`true` when it is not nil); its calls are recorded in the
result of `ChangeLocale`. -/
structure Context (ν : Type) where
  availableLocales : List GoString
  locales : List (Locale ν)
  currentLocale : Locale ν
  options : Options
  onLocaleChange : Bool

/-- The decoder handed to `New` in place of `json.Unmarshal`: a tree, or the
text of the decoding error. -/
abbrev Unmarshal (ν : Type) := Bytes → Except GoString (Tree ν)

/-- A run-time panic of the Go program. -/
inductive Panic where
  /-- A failed single-value type assertion `x.(map[string]interface{})`. -/
  | interfaceConversion
  /-- Dereference of a nil `*map[string]interface{}`. -/
  | nilDereference
  deriving DecidableEq, Repr

deriving instance DecidableEq for Except

/-- One variadic argument of `T`, as far as the type assertion
`options[0].(*map[string]interface{})` tells them apart: a pointer to an
options map (`none` for the nil pointer), or a value of any other type. -/
inductive Arg (ν : Type) where
  | optionsMap (m : Option (Tree ν))
  | other

/-- Map index `m[key]` in its comma-ok form. -/
def lookup (key : GoString) : Tree ν → Option (Value ν)
  | [] => none
  | (k, v) :: rest => if k = key then some v else lookup key rest

/-! ## `New` (lines 43-106) -/

/-- The `for _, locale := range options.Locales` loop of `New`, with its three
accumulators; an early `return nil, err` is `Except.error`. -/
def New.loop (unmarshal : Unmarshal ν) (DefaultLocale : GoString) :
    List LocaleOptions → List (Locale ν) → Locale ν → List GoString →
      Except GoString (List (Locale ν) × Locale ν × List GoString)
  | [], Locales, currentLocale, availableLocales =>
    .ok (Locales, currentLocale, availableLocales)
  | locale :: rest, Locales, currentLocale, availableLocales =>
    match unmarshal locale.File with
    | .error err =>
      .error ("error unmarshalling JSON for locale '".toList ++ locale.Locale
        ++ "': ".toList ++ err)
    | .ok localeData =>
      let Locales := Locales ++ [{ locale := locale.Locale, data := localeData }]
      if locale.Locale ∈ availableLocales then
        .error ("locale '".toList ++ locale.Locale ++ "' is defined more than once".toList)
      else
        let currentLocale :=
          if locale.Locale = DefaultLocale then
            { locale := locale.Locale, data := localeData }
          else currentLocale
        New.loop unmarshal DefaultLocale rest Locales currentLocale
          (availableLocales ++ [locale.Locale])

/-- Function `New(options)`: the context, or the error text. -/
def New (unmarshal : Unmarshal ν) (options : Options) : Except GoString (Context ν) :=
  match New.loop unmarshal options.DefaultLocale options.Locales [] { locale := [], data := [] } [] with
  | .error err => .error err
  | .ok (Locales, currentLocale, availableLocales) =>
    if options.DefaultLocale ∉ availableLocales then
      .error ("default locale '".toList ++ options.DefaultLocale ++ "' is not defined".toList)
    else
      let options :=
        if options.Separator = [] then { options with Separator := ".".toList } else options
      .ok { availableLocales := availableLocales
            locales := Locales
            options := options
            currentLocale := currentLocale
            onLocaleChange := false }

/-! ## `Context.T` (lines 108-174) -/

/-- Lines 115-128: the scope prefix and the locale override read from the
options map. -/
def T.readOptions (Separator : GoString) (keys : List GoString) (requestedLocale : GoString) :
    List (Arg ν) → Except Panic (List GoString × GoString)
  | .optionsMap none :: _ => .error .nilDereference
  | .optionsMap (some optionsMap) :: _ =>
    let keys :=
      match lookup "scope".toList optionsMap with
      | some (.str scope) => if scope ≠ [] then Split scope Separator ++ keys else keys
      | _ => keys
    let requestedLocale :=
      match lookup "locale".toList optionsMap with
      | some (.str locale) => locale
      | _ => requestedLocale
    .ok (keys, requestedLocale)
  | _ => .ok (keys, requestedLocale)

/-- Lines 142-149: the tree of the first entry named `requestedLocale`, or
`current` when there is none. -/
def T.selectTree (requestedLocale : GoString) (current : Tree ν) : List (Locale ν) → Tree ν
  | [] => current
  | l :: ls => if l.locale = requestedLocale then l.data else T.selectTree requestedLocale current ls

/-- Lines 151-161: the traversal loop. `.ok (some v)` when all keys were
found, `.ok none` on a missing key, a panic when `current` is not a map while
keys remain. -/
def T.descend : Value ν → List GoString → Except Panic (Option (Value ν))
  | current, [] => .ok (some current)
  | .object m, key :: keys =>
    match lookup key m with
    | some value => T.descend value keys
    | none => .ok none
  | _, _ :: _ => .error .interfaceConversion

/-- Text `fmt.Sprintf("{{%s}}", key)`: the key between two pairs of braces. -/
def placeholder (key : GoString) : GoString :=
  "\x7b\x7b".toList ++ key ++ "\x7d\x7d".toList

/-- Lines 165-171: one `strings.ReplaceAll` per entry of the options map, in
the order of the `range`. -/
def T.substitute (fmtNum : ν → GoString) (val : GoString) : Tree ν → GoString
  | [] => val
  | (key, value) :: rest =>
    T.substitute fmtNum
      (ReplaceAll val (placeholder key) (Value.render fmtNum value)) rest

/-- Method `ctx.T(path, options...)`: the returned string, or the panic. -/
def T (fmtNum : ν → GoString) (ctx : Context ν) (path : GoString) (options : List (Arg ν)) :
    Except Panic GoString :=
  let keys := Split path ctx.options.Separator
  let requestedLocale := ctx.currentLocale.locale
  match T.readOptions ctx.options.Separator keys requestedLocale options with
  | .error p => .error p
  | .ok (keys, requestedLocale) =>
    let currentKeyPath := Join keys ctx.options.Separator
    if keys.length = 0 then
      .ok ("invalid path '".toList ++ currentKeyPath ++ "'".toList)
    else
      let current : Tree ν :=
        if requestedLocale ≠ [] then
          T.selectTree requestedLocale ctx.currentLocale.data ctx.locales
        else ctx.currentLocale.data
      match T.descend (.object current) keys with
      | .error p => .error p
      | .ok none =>
        .ok ("missing translation for path '".toList ++ requestedLocale ++ ".".toList
          ++ currentKeyPath ++ "'".toList)
      | .ok (some current) =>
        let val := Value.render fmtNum current
        match options with
        | .optionsMap (some optionsMap) :: _ => .ok (T.substitute fmtNum val optionsMap)
        | _ => .ok val

/-! ## `Context.ChangeLocale` and `Context.CurrentLocale` (lines 176-220) -/

/-- What a call of `ChangeLocale` leaves behind: the context, the returned
error (`none` for nil) and the calls made to `onLocaleChange`. -/
structure ChangeLocaleResult (ν : Type) where
  ctx : Context ν
  err : Option GoString
  hookCalls : List GoString

/-- Lines 192-212: the scan over `ctx.locales`, and the error behind it. -/
def ChangeLocale.scan (ctx : Context ν) (locale : GoString) : List (Locale ν) → ChangeLocaleResult ν
  | [] =>
    { ctx := ctx
      err := some ("locale '".toList ++ locale ++ "' is not defined".toList)
      hookCalls := [] }
  | l :: ls =>
    if l.locale = locale then
      { ctx := { ctx with currentLocale := l }
        err := none
        hookCalls := if ctx.onLocaleChange then [locale] else [] }
    else ChangeLocale.scan ctx locale ls

/-- Method `ctx.ChangeLocale(locale)`. -/
def ChangeLocale (ctx : Context ν) (locale : GoString) : ChangeLocaleResult ν :=
  if locale ∉ ctx.availableLocales then
    { ctx := ctx
      err := some ("locale '".toList ++ locale ++ "' is not available".toList)
      hookCalls := [] }
  else if ctx.currentLocale.locale = locale then
    { ctx := ctx, err := none, hookCalls := [] }
  else ChangeLocale.scan ctx locale ctx.locales

/-- Method `ctx.CurrentLocale()`. -/
def CurrentLocale (ctx : Context ν) : GoString :=
  ctx.currentLocale.locale

/-! ## The documents of `i18ngo_test.go` -/

/-- Test document `enData`, decoded. -/
def enData : Tree Nat :=
  [("pages".toList, .object [("login".toList, .object [("buttons".toList,
      .object [("login".toList, .str "Login".toList)])])]),
   ("common".toList, .object [("greetings".toList,
      .object [("hello".toList, .str "Hello".toList)])])]

/-- Test document `trData`, decoded. -/
def trData : Tree Nat :=
  [("pages".toList, .object [("login".toList, .object [("buttons".toList,
      .object [("login".toList, .str "Giriş".toList)])])]),
   ("common".toList, .object [("greetings".toList,
      .object [("hello".toList, .str "Merhaba".toList)])])]

/-- A decoder for the examples: the first byte of a file selects its tree. -/
def testUnmarshal (docs : List (Tree Nat)) : Unmarshal Nat
  | [] => .error "unexpected end of JSON input".toList
  | b :: _ =>
    match docs.get? b.toNat with
    | some t => .ok t
    | none => .error "invalid character".toList

/-- The options of `TestTranslate`. -/
def testOptions : Options :=
  { DefaultLocale := "en".toList
    Locales := [{ Locale := "en".toList, File := [0] }, { Locale := "tr".toList, File := [1] }]
    Debug := false
    Separator := [] }

/-- The context `New` builds in `TestTranslate`. -/
def testCtx : Context Nat :=
  { availableLocales := ["en".toList, "tr".toList]
    locales := [{ locale := "en".toList, data := enData }, { locale := "tr".toList, data := trData }]
    currentLocale := { locale := "en".toList, data := enData }
    options := { testOptions with Separator := ".".toList }
    onLocaleChange := false }

/-! ## Concrete contexts used as examples -/

/-- A document with a string leaf and a null under `a`:
`{"a": {"b": "x", "n": null}}`. -/
def leafDoc : Tree Nat :=
  [("a".toList, .object [("b".toList, .str "x".toList), ("n".toList, .null)])]

/-- Options with the single locale `en`, read from the first test file. -/
def enOnlyOptions : Options :=
  { DefaultLocale := "en".toList
    Locales := [{ Locale := "en".toList, File := [0] }]
    Debug := false
    Separator := [] }

/-- The context `New` builds from `enOnlyOptions` when the file decodes to `doc`. -/
def enOnlyCtx (doc : Tree Nat) : Context Nat :=
  { availableLocales := ["en".toList]
    locales := [{ locale := "en".toList, data := doc }]
    currentLocale := { locale := "en".toList, data := doc }
    options := { enOnlyOptions with Separator := ".".toList }
    onLocaleChange := false }

/-- The document of `TestTranslateWithParams`:
`{"pages": {"login": {"welcome": "Welcome, {{name}}!"}}}`. -/
def welcomeDoc : Tree Nat :=
  [("pages".toList, .object [("login".toList,
      .object [("welcome".toList, .str "Welcome, \x7b\x7bname\x7d\x7d!".toList)])])]

/-- A document whose leaf holds the placeholder of the reserved key `locale`:
`{"lang": "{{locale}}"}`. -/
def localeDoc : Tree Nat :=
  [("lang".toList, .str "\x7b\x7blocale\x7d\x7d".toList)]

/-- A document whose leaf holds the placeholders of both reserved keys:
`{"a": {"b": "{{scope}}-{{locale}}"}}`. -/
def reservedDoc : Tree Nat :=
  [("a".toList, .object [("b".toList,
      .str "\x7b\x7bscope\x7d\x7d-\x7b\x7blocale\x7d\x7d".toList)])]

/-- A document whose leaf holds a placeholder: `{"t": "{{a}}"}`. -/
def nestedDoc : Tree Nat :=
  [("t".toList, .str "\x7b\x7ba\x7d\x7d".toList)]

/-- A document with a key that ends in `a`: `{"xa": {"y": "V"}}`. -/
def borderDoc : Tree Nat :=
  [("xa".toList, .object [("y".toList, .str "V".toList)])]

/-- Options with the single locale `en` and the separator `"aa"`. -/
def borderOptions : Options :=
  { enOnlyOptions with Separator := "aa".toList }

/-- The context `New` builds from `borderOptions` and `borderDoc`. -/
def borderCtx : Context Nat :=
  { availableLocales := ["en".toList]
    locales := [{ locale := "en".toList, data := borderDoc }]
    currentLocale := { locale := "en".toList, data := borderDoc }
    options := borderOptions
    onLocaleChange := false }

/-- Options with the locales `en` (the default) and `""`. -/
def emptyIdOptions : Options :=
  { DefaultLocale := "en".toList
    Locales := [{ Locale := "en".toList, File := [0] }, { Locale := [], File := [1] }]
    Debug := false
    Separator := [] }

/-- The context `New` builds from `emptyIdOptions` when the documents are
`{"k": "E"}` for `en` and `{"k": "N"}` for `""`. -/
def emptyIdCtx : Context Nat :=
  { availableLocales := ["en".toList, []]
    locales := [{ locale := "en".toList, data := [("k".toList, .str "E".toList)] },
      { locale := [], data := [("k".toList, .str "N".toList)] }]
    currentLocale := { locale := "en".toList, data := [("k".toList, .str "E".toList)] }
    options := { emptyIdOptions with Separator := ".".toList }
    onLocaleChange := false }

/-- Options in which the identifier `en` is given twice and the default
`fr` not at all. -/
def duplicateOptions : Options :=
  { DefaultLocale := "fr".toList
    Locales := [{ Locale := "tr".toList, File := [1] }, { Locale := "en".toList, File := [0] },
      { Locale := "en".toList, File := [0] }, { Locale := "tr".toList, File := [1] }]
    Debug := false
    Separator := [] }

/-- The options of `TestSeparatorHandling`: one locale, separator `"/"`. -/
def slashOptions : Options :=
  { enOnlyOptions with Separator := "/".toList }

/-- The context `New` builds from `slashOptions` and the first test document. -/
def slashCtx : Context Nat :=
  { availableLocales := ["en".toList]
    locales := [{ locale := "en".toList, data := enData }]
    currentLocale := { locale := "en".toList, data := enData }
    options := slashOptions
    onLocaleChange := false }

/-- A document with the empty string as a key: `{"": "root"}`. -/
def emptyKeyDoc : Tree Nat :=
  [([], .str "root".toList)]

/-- The context of `TestTranslate` with a change-notification callback set. -/
def hookedCtx : Context Nat :=
  { testCtx with onLocaleChange := true }

/-- The context `New` builds from the options of `TestTranslate` when the
document of `tr` is `{"a": {"b": "x", "n": null}}`. -/
def leafTrCtx : Context Nat :=
  { availableLocales := ["en".toList, "tr".toList]
    locales := [{ locale := "en".toList, data := enData }, { locale := "tr".toList, data := leafDoc }]
    currentLocale := { locale := "en".toList, data := enData }
    options := { testOptions with Separator := ".".toList }
    onLocaleChange := false }

/-- A document whose leaf has two closing braces behind a placeholder:
`{"t": "{{a}}}}"}`. -/
def tailDoc : Tree Nat :=
  [("t".toList, .str "\x7b\x7ba\x7d\x7d\x7d\x7d".toList)]

/-- The rendering of numbers used in the examples (none of them has a number). -/
def noNum : Nat → GoString := fun _ => []

/-! ## Notions the specification uses -/

/-- Relation `Resolves root keys v`: walking `keys` one at a time from `root` descends
through object nodes, each containing the next key, and ends at `v`. -/
inductive Resolves : Value ν → List GoString → Value ν → Prop where
  | refl (v : Value ν) : Resolves v [] v
  | step {m : Tree ν} {key : GoString} {child : Value ν} {keys : List GoString} {v : Value ν} :
      lookup key m = some child → Resolves child keys v → Resolves (.object m) (key :: keys) v

/-- Predicate `MissingKey root keys`: walking `keys` from `root` through object nodes
arrives at an object node that does not contain the next key. -/
inductive MissingKey : Value ν → List GoString → Prop where
  | here {m : Tree ν} {key : GoString} {keys : List GoString} :
      lookup key m = none → MissingKey (.object m) (key :: keys)
  | step {m : Tree ν} {key : GoString} {child : Value ν} {keys : List GoString} :
      lookup key m = some child → MissingKey child keys → MissingKey (.object m) (key :: keys)

/-- Relation `ReplacedAll old new s r`: `r` is `s` with every occurrence of `old`,
taken without overlap from left to right, replaced by `new`. Either `old` does
not occur in `s`, or `s` is cut at its leftmost occurrence and the rest behind
that occurrence is treated the same way; the text `new` written is not looked
at again. -/
inductive ReplacedAll (old new : GoString) : GoString → GoString → Prop where
  | done {s : GoString} : ¬ old <:+: s → ReplacedAll old new s s
  | cut {pre rest out : GoString} :
      (∀ a b : GoString, pre ++ old ++ rest = a ++ old ++ b → pre.length ≤ a.length) →
      ReplacedAll old new rest out →
      ReplacedAll old new (pre ++ old ++ rest) (pre ++ new ++ out)

/-- A piece of a template: literal text, or a placeholder `{{key}}`. -/
inductive Segment where
  | lit (text : GoString)
  | hole (key : GoString)

/-- The text of a template: the literal pieces as they are, each placeholder
as its key between two pairs of braces. -/
def renderSegments : List Segment → GoString
  | [] => []
  | .lit text :: rest => text ++ renderSegments rest
  | .hole key :: rest => placeholder key ++ renderSegments rest

/-- A plain piece: literal text without an opening brace, or a placeholder
whose key has no brace. -/
def Segment.Plain : Segment → Prop
  | .lit text => '\x7b' ∉ text
  | .hole key => '\x7b' ∉ key ∧ '\x7d' ∉ key

/-- One piece after the substitution of the single key `key` by `new`. -/
def Segment.substOne (key new : GoString) : Segment → Segment
  | .lit text => .lit text
  | .hole k => if key = k then .lit new else .hole k

/-- One piece after the simultaneous substitution by the map `m`: a
placeholder whose key is in `m` becomes the rendering of its value, everything
else stays. -/
def Segment.fill (fmtNum : ν → GoString) (m : Tree ν) : Segment → Segment
  | .lit text => .lit text
  | .hole k =>
    match lookup k m with
    | some v => .lit (v.render fmtNum)
    | none => .hole k

/-- A document whose leaf is the template of the specification:
`{"t": "{{a}}-{{b}}"}`. -/
def pairDoc : Tree Nat :=
  [("t".toList, .str "\x7b\x7ba\x7d\x7d-\x7b\x7bb\x7d\x7d".toList)]

/-- A document whose leaf has a placeholder inside braces:
`{"t": "{{{{b}}}}"}`. -/
def doubleDoc : Tree Nat :=
  [("t".toList, .str "\x7b\x7b\x7b\x7bb\x7d\x7d\x7d\x7d".toList)]

/-- One pass of the substitution loop: every occurrence of the placeholder of
the entry's key in `val` is replaced by the rendering of the entry's value. -/
def substitutePass (fmtNum : ν → GoString) (val : GoString) (e : GoString × Value ν) :
    GoString :=
  ReplaceAll val (placeholder e.1) (e.2.render fmtNum)

/-- A separator without a border: no proper, non-empty end of it is also its
beginning. Every one-character separator is of this kind; `"aa"` and `"::"`
are not. -/
def Unbordered (sep : GoString) : Prop :=
  ∀ k, k < sep.length → 0 < k → sep.drop k ≠ sep.take (sep.length - k)

/-- The registry invariant: the available identifiers are those of the
entries, no identifier occurs twice, the cursor is one of the entries, and the
separator is not empty. -/
structure Inv (ctx : Context ν) : Prop where
  available : ctx.availableLocales = ctx.locales.map (fun l => l.locale)
  nodup : ctx.availableLocales.Nodup
  current : ctx.currentLocale ∈ ctx.locales
  separator : ctx.options.Separator ≠ []

/-- The contexts a caller can hold: the one returned by a successful `New`,
and what any sequence of `ChangeLocale` calls makes of it. -/
inductive Reachable (unmarshal : Unmarshal ν) (options : Options) : Context ν → Prop where
  | new {ctx : Context ν} : New unmarshal options = .ok ctx → Reachable unmarshal options ctx
  | change {ctx : Context ν} (locale : GoString) :
      Reachable unmarshal options ctx → Reachable unmarshal options (ChangeLocale ctx locale).ctx

/-- The text `"missing translation for path '<locale>.<path>'"`. -/
def missingTranslation (locale path : GoString) : GoString :=
  "missing translation for path '".toList ++ locale ++ ".".toList ++ path ++ "'".toList

/-! # Theorems -/

/-! ## Facts about `strings.Index` -/

theorem Index_eq_some_split {sub : GoString} :
    ∀ {s : GoString} {j : Nat}, Index s sub = some j →
      s = s.take j ++ sub ++ s.drop (j + sub.length) := by
  intro s
  induction s with
  | nil =>
    intro j h
    unfold Index at h
    split at h
    · subst_vars; simp
    · cases h
  | cons c cs ih =>
    intro j h
    unfold Index at h
    split at h
    next hp =>
      cases h
      obtain ⟨t, ht⟩ := List.isPrefixOf_iff_prefix.mp hp
      rw [← ht]
      simp
    next hp =>
      cases hcs : Index cs sub with
      | none => rw [hcs] at h; cases h
      | some j' =>
        rw [hcs] at h
        cases h
        have := ih hcs
        have e : j' + 1 + sub.length = (j' + sub.length) + 1 := by omega
        rw [e, List.take_succ_cons, List.drop_succ_cons]
        simpa using this

theorem Index_eq_some_first {sub : GoString} :
    ∀ {s : GoString} {j : Nat}, Index s sub = some j →
      ∀ a b : GoString, s = a ++ sub ++ b → j ≤ a.length := by
  intro s
  induction s with
  | nil =>
    intro j h a b hab
    unfold Index at h
    split at h
    · cases h; omega
    · cases h
  | cons c cs ih =>
    intro j h a b hab
    unfold Index at h
    split at h
    next hp => cases h; omega
    next hp =>
      cases hcs : Index cs sub with
      | none => rw [hcs] at h; cases h
      | some j' =>
        rw [hcs] at h
        cases h
        cases a with
        | nil =>
          exfalso
          apply hp
          apply List.isPrefixOf_iff_prefix.mpr
          exact ⟨b, by simpa using hab.symm⟩
        | cons x a' =>
          simp only [List.cons_append, List.cons.injEq] at hab
          have := ih hcs a' b (by simpa using hab.2)
          simp only [List.length_cons]
          omega

theorem Index_eq_none {sub : GoString} :
    ∀ {s : GoString}, Index s sub = none → ¬ sub <:+: s := by
  intro s
  induction s with
  | nil =>
    intro h hin
    unfold Index at h
    split at h
    · cases h
    · next hne => exact hne (List.eq_nil_of_infix_nil hin)
  | cons c cs ih =>
    intro h hin
    unfold Index at h
    split at h
    · cases h
    next hp =>
      cases hcs : Index cs sub with
      | some j' => rw [hcs] at h; cases h
      | none =>
        obtain ⟨a, b, hab⟩ := hin
        cases a with
        | nil =>
          apply hp
          apply List.isPrefixOf_iff_prefix.mpr
          exact ⟨b, by simpa using hab⟩
        | cons x a' =>
          simp only [List.cons_append, List.cons.injEq] at hab
          exact ih hcs ⟨a', b, by simpa using hab.2⟩

theorem Index_isSome_of_occurs {sub s : GoString} (h : sub <:+: s) : ∃ j, Index s sub = some j := by
  cases hI : Index s sub with
  | none => exact absurd h (Index_eq_none hI)
  | some j => exact ⟨j, rfl⟩

/-! ## Facts about `strings.Split` and `strings.Join` -/

theorem genSplit_ne_nil (sep : GoString) (n : Nat) (s : GoString) : genSplit sep n s ≠ [] := by
  cases n with
  | zero => simp [genSplit]
  | succ n =>
    unfold genSplit
    split <;> simp

theorem genSplit_succ_some {sep s : GoString} {j : Nat} (n : Nat) (h : Index s sep = some j) :
    genSplit sep (n + 1) s = s.take j :: genSplit sep n (s.drop (j + sep.length)) := by
  rw [genSplit, h]

theorem Join_cons_cons (a : GoString) {l : List GoString} (hl : l ≠ []) (sep : GoString) :
    Join (a :: l) sep = a ++ sep ++ Join l sep := by
  cases l with
  | nil => exact absurd rfl hl
  | cons b rest => rfl

theorem Join_genSplit (sep : GoString) : ∀ (n : Nat) (s : GoString), Join (genSplit sep n s) sep = s := by
  intro n
  induction n with
  | zero => intro s; rfl
  | succ n ih =>
    intro s
    unfold genSplit
    cases hI : Index s sep with
    | none => rfl
    | some m =>
      simp only
      rw [Join_cons_cons _ (genSplit_ne_nil _ _ _), ih]
      exact (Index_eq_some_split hI).symm

theorem Join_explode : ∀ s : GoString, Join (explode s) [] = s := by
  intro s
  induction s with
  | nil => rfl
  | cons c cs ih =>
    cases cs with
    | nil => rfl
    | cons d ds =>
      have : explode (c :: d :: ds) = [c] :: explode (d :: ds) := rfl
      rw [this, Join_cons_cons _ (by simp [explode])]
      rw [ih]
      rfl

/-- Splitting at a separator and joining with it gives the string back. -/
theorem Join_Split (s sep : GoString) : Join (Split s sep) sep = s := by
  unfold Split
  split
  next h => subst h; exact Join_explode s
  next h => exact Join_genSplit sep _ s

theorem Split_ne_nil (s : GoString) {sep : GoString} (h : sep ≠ []) : Split s sep ≠ [] := by
  unfold Split
  rw [if_neg h]
  exact genSplit_ne_nil _ _ _

theorem Index_nil_of_ne_nil {sep : GoString} (h : sep ≠ []) : Index [] sep = none := by
  simp [Index, h]

theorem Index_some_length_le {sub : GoString} :
    ∀ {s : GoString} {j : Nat}, Index s sub = some j → j + sub.length ≤ s.length := by
  intro s
  induction s with
  | nil =>
    intro j h
    unfold Index at h
    split at h
    · cases h; subst_vars; simp
    · cases h
  | cons c cs ih =>
    intro j h
    unfold Index at h
    split at h
    next hp =>
      cases h
      have := (List.isPrefixOf_iff_prefix.mp hp).length_le
      omega
    next hp =>
      cases hcs : Index cs sub with
      | none => rw [hcs] at h; cases h
      | some j' =>
        rw [hcs] at h
        cases h
        have := ih hcs
        simp only [List.length_cons]
        omega

/-- The counter of `genSplit` does not matter once it is at least the length
of the string. -/
theorem genSplit_fuel {sep : GoString} (hsep : sep ≠ []) :
    ∀ (n m : Nat) (s : GoString), s.length ≤ n → s.length ≤ m →
      genSplit sep n s = genSplit sep m s := by
  have hlen : 0 < sep.length := List.length_pos.mpr hsep
  intro n
  induction n with
  | zero =>
    intro m s hn hm
    have hs : s = [] := List.length_eq_zero.mp (by omega)
    subst hs
    cases m with
    | zero => rfl
    | succ m => simp [genSplit, Index_nil_of_ne_nil hsep]
  | succ n ih =>
    intro m s hn hm
    cases m with
    | zero =>
      have hs : s = [] := List.length_eq_zero.mp (by omega)
      subst hs
      simp [genSplit, Index_nil_of_ne_nil hsep]
    | succ m =>
      unfold genSplit
      cases hI : Index s sep with
      | none => rfl
      | some j =>
        simp only
        have := Index_some_length_le hI
        rw [ih m (s.drop (j + sep.length)) (by simp; omega) (by simp; omega)]

/-! ## Splitting a composed path -/

theorem Index_append_of_some {sub : GoString} :
    ∀ {s : GoString} {j : Nat} (t : GoString), Index s sub = some j →
      Index (s ++ t) sub = some j := by
  intro s
  induction s with
  | nil =>
    intro j t h
    unfold Index at h
    split at h
    next h0 =>
      cases h
      subst h0
      cases t <;> simp [Index]
    · cases h
  | cons c cs ih =>
    intro j t h
    unfold Index at h
    rw [List.cons_append]
    unfold Index
    split at h
    next hp =>
      cases h
      have : sub.isPrefixOf (c :: (cs ++ t)) = true :=
        List.isPrefixOf_iff_prefix.mpr
          ((List.isPrefixOf_iff_prefix.mp hp).trans (List.prefix_append (c :: cs) t))
      rw [if_pos this]
    next hp =>
      cases hcs : Index cs sub with
      | none => rw [hcs] at h; cases h
      | some j' =>
        rw [hcs] at h
        cases h
        have hle := Index_some_length_le hcs
        have : ¬ sub.isPrefixOf (c :: (cs ++ t)) = true := by
          intro hpre
          apply hp
          apply List.isPrefixOf_iff_prefix.mpr
          exact List.prefix_of_prefix_length_le (List.isPrefixOf_iff_prefix.mp hpre)
            (List.prefix_append (c :: cs) t) (by simp only [List.length_cons]; omega)
        rw [if_neg this, ih t hcs]
        rfl

theorem Index_append_sep_of_none {sep : GoString} (hsep : sep ≠ []) (hub : Unbordered sep) :
    ∀ {s : GoString} (p : GoString), Index s sep = none →
      Index (s ++ sep ++ p) sep = some s.length := by
  intro s
  induction s with
  | nil =>
    intro p _
    cases sep with
    | nil => exact absurd rfl hsep
    | cons d ds =>
      simp only [List.nil_append, List.cons_append, List.length_nil]
      unfold Index
      have : (d :: ds).isPrefixOf (d :: (ds ++ p)) = true :=
        List.isPrefixOf_iff_prefix.mpr (List.prefix_append (d :: ds) p)
      rw [if_pos this]
  | cons x xs ih =>
    intro p h
    unfold Index at h
    split at h
    · cases h
    next hp =>
      cases hxs : Index xs sep with
      | some j' => rw [hxs] at h; cases h
      | none =>
        have hno : ¬ sep.isPrefixOf (x :: (xs ++ sep ++ p)) = true := by
          intro hpre
          have hpre' : sep <+: (x :: xs) ++ (sep ++ p) := by
            have := List.isPrefixOf_iff_prefix.mp hpre
            simpa [List.append_assoc] using this
          by_cases hk : sep.length ≤ (x :: xs).length
          · apply hp
            apply List.isPrefixOf_iff_prefix.mpr
            exact List.prefix_of_prefix_length_le hpre' (List.prefix_append _ _) hk
          · have hk' : (x :: xs).length < sep.length := Nat.lt_of_not_le hk
            have h1 : (x :: xs) <+: sep :=
              List.prefix_of_prefix_length_le (List.prefix_append _ _) hpre' (Nat.le_of_lt hk')
            obtain ⟨u, hu⟩ := h1
            obtain ⟨r, hr⟩ := hpre'
            have hlen : sep.length = (x :: xs).length + u.length := by
              rw [← hu, List.length_append]
            have hdrop : sep.drop (x :: xs).length = u := by
              rw [← hu, List.drop_left]
            have h2 : u ++ r = sep ++ p := by
              rw [← hu, List.append_assoc] at hr
              have := List.append_cancel_left hr
              rw [hu] at this
              exact this
            have h3 : u <+: sep :=
              List.prefix_of_prefix_length_le ⟨r, h2⟩ (List.prefix_append sep p) (by omega)
            have h4 : u = sep.take u.length := List.prefix_iff_eq_take.mp h3
            apply hub (x :: xs).length hk' (by simp)
            rw [hdrop]
            have : sep.length - (x :: xs).length = u.length := by omega
            rw [this]
            exact h4
        have e : (x :: xs) ++ sep ++ p = x :: (xs ++ sep ++ p) := by simp
        rw [e]
        unfold Index
        rw [if_neg hno, ih p hxs]
        rfl

/-- With a separator that has no border, the composed path
`scope + separator + path` splits into the segments of `scope` followed by
those of `path`. -/
theorem genSplit_append {sep : GoString} (hsep : sep ≠ []) (hub : Unbordered sep) (p : GoString) :
    ∀ (n : Nat) (s : GoString) (m : Nat), s.length ≤ n → s.length + sep.length + p.length ≤ m →
      genSplit sep m (s ++ sep ++ p) = genSplit sep n s ++ genSplit sep p.length p := by
  have hpos : 0 < sep.length := List.length_pos.mpr hsep
  have hnone : ∀ (n : Nat) (s : GoString) (m : Nat), Index s sep = none →
      s.length + sep.length + p.length ≤ m →
      genSplit sep m (s ++ sep ++ p) = genSplit sep n s ++ genSplit sep p.length p := by
    intro n s m hI hm
    have h1 : genSplit sep n s = [s] := by
      cases n with
      | zero => rfl
      | succ n => unfold genSplit; rw [hI]
    cases m with
    | zero => omega
    | succ m =>
      rw [h1, genSplit_succ_some m (Index_append_sep_of_none hsep hub p hI)]
      have e1 : List.take s.length (s ++ sep ++ p) = s := by
        rw [List.append_assoc, List.take_left]
      have e2 : List.drop (s.length + sep.length) (s ++ sep ++ p) = p := by
        rw [← List.length_append, List.drop_left]
      rw [e1, e2, genSplit_fuel hsep m p.length p (by omega) (Nat.le_refl _)]
      rfl
  intro n
  induction n with
  | zero =>
    intro s m hn hm
    have hs : s = [] := List.length_eq_zero.mp (by omega)
    subst hs
    exact hnone 0 [] m (Index_nil_of_ne_nil hsep) hm
  | succ n ih =>
    intro s m hn hm
    cases hI : Index s sep with
    | none => exact hnone (n + 1) s m hI hm
    | some j =>
      have hle := Index_some_length_le hI
      cases m with
      | zero => omega
      | succ m =>
        have hI' : Index (s ++ sep ++ p) sep = some j := by
          rw [List.append_assoc]
          exact Index_append_of_some _ hI
        have e1 : List.take j (s ++ sep ++ p) = List.take j s := by
          rw [List.append_assoc]
          exact List.take_append_of_le_length (by omega)
        have e2 : List.drop (j + sep.length) (s ++ sep ++ p)
            = List.drop (j + sep.length) s ++ sep ++ p := by
          rw [List.append_assoc, List.append_assoc]
          exact List.drop_append_of_le_length hle
        have hrec := ih (List.drop (j + sep.length) s) m
          (by simp only [List.length_drop]; omega) (by simp only [List.length_drop]; omega)
        rw [genSplit_succ_some m hI', genSplit_succ_some n hI, e1, e2, hrec]
        rfl

theorem Split_append {sep : GoString} (hsep : sep ≠ []) (hub : Unbordered sep) (s p : GoString) :
    Split (s ++ sep ++ p) sep = Split s sep ++ Split p sep := by
  simp only [Split, if_neg hsep]
  exact genSplit_append hsep hub p s.length s (s ++ sep ++ p).length (Nat.le_refl _)
    (by simp only [List.length_append]; omega)

theorem Unbordered_singleton (c : Char) : Unbordered [c] := by
  intro k hk hpos
  simp only [List.length_singleton] at hk
  omega

/-! ## Facts about `strings.ReplaceAll` -/

theorem Index_some_occurs {sub s : GoString} {j : Nat} (h : Index s sub = some j) : sub <:+: s :=
  ⟨s.take j, s.drop (j + sub.length), (Index_eq_some_split h).symm⟩

theorem replaceLoop_same (old : GoString) :
    ∀ (n : Nat) (s : GoString), replaceLoop old old n s = s := by
  intro n
  induction n with
  | zero => intro s; rfl
  | succ n ih =>
    intro s
    unfold replaceLoop
    cases hI : Index s old with
    | none => rfl
    | some j =>
      simp only
      rw [ih]
      exact (Index_eq_some_split hI).symm

/-- The loop of `strings.Replace` replaces every occurrence, leftmost first,
once its counter is at least the length of the string. -/
theorem replaceLoop_ReplacedAll {old : GoString} (new : GoString) (hold : old ≠ []) :
    ∀ (n : Nat) (s : GoString), s.length ≤ n → ReplacedAll old new s (replaceLoop old new n s) := by
  intro n
  induction n with
  | zero =>
    intro s hn
    have hs : s = [] := List.length_eq_zero.mp (by omega)
    subst hs
    exact .done (fun h => hold (List.eq_nil_of_infix_nil h))
  | succ n ih =>
    intro s hn
    unfold replaceLoop
    cases hI : Index s old with
    | none => exact .done (Index_eq_none hI)
    | some j =>
      simp only
      have e := Index_eq_some_split hI
      have hle := Index_some_length_le hI
      have hpos : 0 < old.length := List.length_pos.mpr hold
      have hrest := ih (s.drop (j + old.length)) (by simp; omega)
      have hfirst : ∀ a b : GoString,
          s.take j ++ old ++ s.drop (j + old.length) = a ++ old ++ b →
            (s.take j).length ≤ a.length := by
        intro a b hab
        have := Index_eq_some_first hI a b (e.trans hab)
        simp only [List.length_take]
        omega
      have hcut := @ReplacedAll.cut old new _ _ _ hfirst hrest
      rw [← e] at hcut
      exact hcut

theorem ReplaceAll_ReplacedAll (s : GoString) {old : GoString} (new : GoString) (hold : old ≠ []) :
    ReplacedAll old new s (ReplaceAll s old new) := by
  unfold ReplaceAll
  by_cases h : old = new
  · rw [if_pos h]
    subst h
    have := replaceLoop_ReplacedAll old hold s.length s (Nat.le_refl _)
    rwa [replaceLoop_same] at this
  · rw [if_neg h, if_neg hold]
    exact replaceLoop_ReplacedAll new hold s.length s (Nat.le_refl _)

/-- Where `old` does not occur, `strings.ReplaceAll` returns its argument. -/
theorem ReplaceAll_eq_self {s old : GoString} (new : GoString) (h : ¬ old <:+: s) :
    ReplaceAll s old new = s := by
  unfold ReplaceAll
  by_cases h1 : old = new
  · rw [if_pos h1]
  · rw [if_neg h1]
    by_cases h0 : old = []
    · subst h0; exact absurd List.nil_infix h
    · rw [if_neg h0]
      cases hn : s.length with
      | zero => rfl
      | succ n =>
        unfold replaceLoop
        cases hI : Index s old with
        | none => rfl
        | some j => exact absurd (Index_some_occurs hI) h

/-- The relation `ReplacedAll` determines its result. -/
theorem ReplacedAll.unique {old new : GoString} :
    ∀ {s r r' : GoString}, ReplacedAll old new s r → ReplacedAll old new s r' → r = r' := by
  intro s r r' h
  induction h generalizing r' with
  | done hno =>
    intro h'
    cases h' with
    | done _ => rfl
    | cut _ _ => exact absurd ⟨_, _, rfl⟩ hno
  | @cut pre rest out hfirst _ ih =>
    intro h'
    generalize hs : pre ++ old ++ rest = s at h'
    cases h' with
    | done hno => exact absurd ⟨pre, rest, hs⟩ hno
    | @cut pre' rest' out' hfirst' hrest' =>
      have h1 := hfirst pre' rest' hs
      have h2 := hfirst' pre rest hs.symm
      have hlen : pre.length = pre'.length := Nat.le_antisymm h1 h2
      have hs' : pre ++ (old ++ rest) = pre' ++ (old ++ rest') := by
        simpa [List.append_assoc] using hs
      obtain ⟨e1, e2⟩ := List.append_inj hs' hlen
      have e3 : rest = rest' := List.append_cancel_left e2
      subst e1
      subst e3
      rw [ih hrest']

/-! ## Splitting a joined list of keys -/

theorem Index_eq_none_of_not_occurs {sub s : GoString} (h : ¬ sub <:+: s) : Index s sub = none := by
  cases hI : Index s sub with
  | none => rfl
  | some j => exact absurd (Index_some_occurs hI) h

theorem Split_of_not_occurs {sep s : GoString} (hsep : sep ≠ []) (h : ¬ sep <:+: s) :
    Split s sep = [s] := by
  simp only [Split, if_neg hsep]
  cases hn : s.length with
  | zero => rfl
  | succ n => rw [genSplit, Index_eq_none_of_not_occurs h]

/-- With a separator that has no border, keys that do not contain the
separator are recovered from their joined form. -/
theorem Split_Join {sep : GoString} (hsep : sep ≠ []) (hub : Unbordered sep) :
    ∀ keys : List GoString, keys ≠ [] → (∀ k ∈ keys, ¬ sep <:+: k) →
      Split (Join keys sep) sep = keys := by
  intro keys
  induction keys with
  | nil => intro h; exact absurd rfl h
  | cons k rest ih =>
    intro _ hfree
    cases rest with
    | nil => exact Split_of_not_occurs hsep (hfree k (List.mem_cons_self _ _))
    | cons k₂ rest' =>
      have hJ : Join (k :: k₂ :: rest') sep = k ++ sep ++ Join (k₂ :: rest') sep := rfl
      rw [hJ, Split_append hsep hub, Split_of_not_occurs hsep (hfree k (List.mem_cons_self _ _)),
        ih (List.cons_ne_nil _ _) (fun k' hk' => hfree k' (List.mem_cons_of_mem _ hk'))]
      rfl

/-! ## The registry invariant -/

theorem New.loop_inv (unmarshal : Unmarshal ν) (d : GoString) :
    ∀ (ls : List LocaleOptions) (Ls : List (Locale ν)) (cur : Locale ν) (av : List GoString)
      (Ls' : List (Locale ν)) (cur' : Locale ν) (av' : List GoString),
      New.loop unmarshal d ls Ls cur av = .ok (Ls', cur', av') →
      av = Ls.map (fun l => l.locale) → av.Nodup → (d ∈ av → cur ∈ Ls ∧ cur.locale = d) →
      av' = Ls'.map (fun l => l.locale) ∧ av'.Nodup ∧ (d ∈ av' → cur' ∈ Ls' ∧ cur'.locale = d) := by
  intro ls
  induction ls with
  | nil =>
    intro Ls cur av Ls' cur' av' h hav hnd hcur
    simp only [New.loop, Except.ok.injEq, Prod.mk.injEq] at h
    obtain ⟨rfl, rfl, rfl⟩ := h
    exact ⟨hav, hnd, hcur⟩
  | cons e rest ih =>
    intro Ls cur av Ls' cur' av' h hav hnd hcur
    unfold New.loop at h
    cases hu : unmarshal e.File with
    | error err => rw [hu] at h; cases h
    | ok localeData =>
      rw [hu] at h
      simp only at h
      by_cases hmem : e.Locale ∈ av
      · rw [if_pos hmem] at h; cases h
      · rw [if_neg hmem] at h
        refine ih _ _ _ _ _ _ h ?_ ?_ ?_
        · simp [hav]
        · exact List.Nodup.append hnd (List.nodup_singleton _) (by simpa using hmem)
        · intro hd
          by_cases hed : e.Locale = d
          · rw [if_pos hed]
            exact ⟨by simp, hed⟩
          · rw [if_neg hed]
            have : d ∈ av := by
              rcases List.mem_append.mp hd with h1 | h1
              · exact h1
              · exact absurd (List.mem_singleton.mp h1).symm hed
            obtain ⟨h1, h2⟩ := hcur this
            exact ⟨List.mem_append_left _ h1, h2⟩

/-- What a successful `New` returns: the invariant holds, the cursor is the
default locale, the separator is the configured one or `"."`. -/
theorem New_ok {unmarshal : Unmarshal ν} {options : Options} {ctx : Context ν}
    (h : New unmarshal options = .ok ctx) :
    Inv ctx ∧ ctx.currentLocale.locale = options.DefaultLocale
      ∧ ctx.options.Separator
          = (if options.Separator = [] then ".".toList else options.Separator)
      ∧ ctx.onLocaleChange = false := by
  unfold New at h
  cases hl : New.loop unmarshal options.DefaultLocale options.Locales [] { locale := [], data := [] } []
    with
  | error err => rw [hl] at h; cases h
  | ok r =>
    obtain ⟨Ls, cur, av⟩ := r
    rw [hl] at h
    simp only at h
    by_cases hd : options.DefaultLocale ∉ av
    · rw [if_pos hd] at h; cases h
    · rw [if_neg hd] at h
      have hd' : options.DefaultLocale ∈ av := not_not.mp hd
      obtain ⟨h1, h2, h3⟩ := New.loop_inv unmarshal _ _ _ _ _ _ _ _ hl rfl List.nodup_nil
        (fun hx => absurd hx (List.not_mem_nil _))
      obtain ⟨h4, h5⟩ := h3 hd'
      cases h
      refine ⟨⟨h1, h2, h4, ?_⟩, h5, ?_, rfl⟩
      · simp only
        split
        · simp
        · assumption
      · simp only
        split <;> rfl

/-! ## The loop of `New`, step by step -/

theorem New.loop_cons_error (unmarshal : Unmarshal ν) (d : GoString) (e : LocaleOptions)
    (rest : List LocaleOptions) (Ls : List (Locale ν)) (cur : Locale ν) (av : List GoString)
    {err : GoString} (h : unmarshal e.File = .error err) :
    New.loop unmarshal d (e :: rest) Ls cur av
      = .error ("error unmarshalling JSON for locale '".toList ++ e.Locale
          ++ "': ".toList ++ err) := by
  rw [New.loop, h]

theorem New.loop_cons_dup (unmarshal : Unmarshal ν) (d : GoString) (e : LocaleOptions)
    (rest : List LocaleOptions) (Ls : List (Locale ν)) (cur : Locale ν) (av : List GoString)
    {t : Tree ν} (h : unmarshal e.File = .ok t) (hmem : e.Locale ∈ av) :
    New.loop unmarshal d (e :: rest) Ls cur av
      = .error ("locale '".toList ++ e.Locale ++ "' is defined more than once".toList) := by
  rw [New.loop, h]
  simp only [if_pos hmem]

theorem New.loop_cons_ok (unmarshal : Unmarshal ν) (d : GoString) (e : LocaleOptions)
    (rest : List LocaleOptions) (Ls : List (Locale ν)) (cur : Locale ν) (av : List GoString)
    {t : Tree ν} (h : unmarshal e.File = .ok t) (hmem : e.Locale ∉ av) :
    New.loop unmarshal d (e :: rest) Ls cur av
      = New.loop unmarshal d rest (Ls ++ [{ locale := e.Locale, data := t }])
          (if e.Locale = d then { locale := e.Locale, data := t } else cur)
          (av ++ [e.Locale]) := by
  rw [New.loop, h]
  simp only [if_neg hmem]

/-- The loop passes over a run of entries that decode and bring no identifier
a second time. -/
theorem New.loop_append (unmarshal : Unmarshal ν) (d : GoString) (rest : List LocaleOptions) :
    ∀ (pre : List LocaleOptions) (Ls : List (Locale ν)) (cur : Locale ν) (av : List GoString),
      (∀ e ∈ pre, ∃ t, unmarshal e.File = .ok t) →
      (av ++ pre.map (fun e => e.Locale)).Nodup →
      ∃ Ls' cur', New.loop unmarshal d (pre ++ rest) Ls cur av
        = New.loop unmarshal d rest Ls' cur' (av ++ pre.map (fun e => e.Locale)) := by
  intro pre
  induction pre with
  | nil =>
    intro Ls cur av _ _
    exact ⟨Ls, cur, by simp⟩
  | cons e pre ih =>
    intro Ls cur av hparse hnd
    obtain ⟨t, ht⟩ := hparse e (List.mem_cons_self _ _)
    have hnd' : ((av ++ [e.Locale]) ++ pre.map (fun e => e.Locale)).Nodup := by
      simpa [List.append_assoc] using hnd
    have hmem : e.Locale ∉ av := by
      intro hin
      have h1 : (av ++ [e.Locale]).Nodup := (List.nodup_append.mp hnd').1
      have h2 := (List.nodup_append.mp h1).2.2
      exact h2 hin (List.mem_singleton_self _)
    obtain ⟨Ls', cur', h⟩ := ih (Ls ++ [{ locale := e.Locale, data := t }])
      (if e.Locale = d then { locale := e.Locale, data := t } else cur) (av ++ [e.Locale])
      (fun e' he' => hparse e' (List.mem_cons_of_mem _ he')) hnd'
    refine ⟨Ls', cur', ?_⟩
    rw [List.cons_append, New.loop_cons_ok unmarshal d e _ Ls cur av ht hmem, h]
    simp [List.append_assoc]

/-- What a completed loop tells: every entry decoded, no identifier came
twice, and the identifiers were collected in order. -/
theorem New.loop_ok_elim (unmarshal : Unmarshal ν) (d : GoString) :
    ∀ (ls : List LocaleOptions) (Ls : List (Locale ν)) (cur : Locale ν) (av : List GoString)
      (Ls' : List (Locale ν)) (cur' : Locale ν) (av' : List GoString),
      New.loop unmarshal d ls Ls cur av = .ok (Ls', cur', av') → av.Nodup →
      (∀ e ∈ ls, ∃ t, unmarshal e.File = .ok t)
        ∧ (av ++ ls.map (fun e => e.Locale)).Nodup
        ∧ av' = av ++ ls.map (fun e => e.Locale) := by
  intro ls
  induction ls with
  | nil =>
    intro Ls cur av Ls' cur' av' h hnd
    simp only [New.loop, Except.ok.injEq, Prod.mk.injEq] at h
    obtain ⟨_, _, rfl⟩ := h
    exact ⟨fun e he => absurd he (List.not_mem_nil _), by simpa using hnd, by simp⟩
  | cons e rest ih =>
    intro Ls cur av Ls' cur' av' h hnd
    cases hu : unmarshal e.File with
    | error err => rw [New.loop_cons_error unmarshal d e rest Ls cur av hu] at h; cases h
    | ok t =>
      by_cases hmem : e.Locale ∈ av
      · rw [New.loop_cons_dup unmarshal d e rest Ls cur av hu hmem] at h; cases h
      · rw [New.loop_cons_ok unmarshal d e rest Ls cur av hu hmem] at h
        have hnd' : (av ++ [e.Locale]).Nodup :=
          List.Nodup.append hnd (List.nodup_singleton _) (by simpa using hmem)
        obtain ⟨h1, h2, h3⟩ := ih _ _ _ _ _ _ h hnd'
        refine ⟨?_, by simpa [List.append_assoc] using h2, by simpa [List.append_assoc] using h3⟩
        intro e' he'
        rcases List.mem_cons.mp he' with rfl | he'
        · exact ⟨t, hu⟩
        · exact h1 e' he'

/-- The cursor the loop leaves is the decoded document of an entry with the
default identifier. -/
theorem New.loop_current (unmarshal : Unmarshal ν) (d : GoString) (all : List LocaleOptions) :
    ∀ (ls : List LocaleOptions) (Ls : List (Locale ν)) (cur : Locale ν) (av : List GoString)
      (Ls' : List (Locale ν)) (cur' : Locale ν) (av' : List GoString),
      New.loop unmarshal d ls Ls cur av = .ok (Ls', cur', av') →
      (∀ e ∈ ls, e ∈ all) →
      (d ∈ av → ∃ e ∈ all, e.Locale = d ∧ unmarshal e.File = .ok cur.data) →
      (d ∈ av' → ∃ e ∈ all, e.Locale = d ∧ unmarshal e.File = .ok cur'.data) := by
  intro ls
  induction ls with
  | nil =>
    intro Ls cur av Ls' cur' av' h _ hcur
    simp only [New.loop, Except.ok.injEq, Prod.mk.injEq] at h
    obtain ⟨_, rfl, rfl⟩ := h
    exact hcur
  | cons e rest ih =>
    intro Ls cur av Ls' cur' av' h hsub hcur
    cases hu : unmarshal e.File with
    | error err => rw [New.loop_cons_error unmarshal d e rest Ls cur av hu] at h; cases h
    | ok t =>
      by_cases hmem : e.Locale ∈ av
      · rw [New.loop_cons_dup unmarshal d e rest Ls cur av hu hmem] at h; cases h
      · rw [New.loop_cons_ok unmarshal d e rest Ls cur av hu hmem] at h
        refine ih _ _ _ _ _ _ h (fun e' he' => hsub e' (List.mem_cons_of_mem _ he')) ?_
        intro hd
        by_cases hed : e.Locale = d
        · rw [if_pos hed]
          exact ⟨e, hsub e (List.mem_cons_self _ _), hed, hu⟩
        · rw [if_neg hed]
          apply hcur
          rcases List.mem_append.mp hd with h1 | h1
          · exact h1
          · exact absurd (List.mem_singleton.mp h1).symm hed

/-- Function `New` succeeds exactly when every document decodes, no identifier occurs
twice and the default identifier is among them. -/
theorem New_isOk_iff (unmarshal : Unmarshal ν) (options : Options) :
    (∃ ctx, New unmarshal options = .ok ctx) ↔
      (∀ e ∈ options.Locales, ∃ t, unmarshal e.File = .ok t)
        ∧ (options.Locales.map (fun e => e.Locale)).Nodup
        ∧ options.DefaultLocale ∈ options.Locales.map (fun e => e.Locale) := by
  constructor
  · rintro ⟨ctx, h⟩
    unfold New at h
    cases hl : New.loop unmarshal options.DefaultLocale options.Locales []
        { locale := [], data := [] } [] with
    | error err => rw [hl] at h; cases h
    | ok r =>
      obtain ⟨Ls, cur, av⟩ := r
      rw [hl] at h
      simp only at h
      obtain ⟨h1, h2, h3⟩ := New.loop_ok_elim unmarshal _ _ _ _ _ _ _ _ hl List.nodup_nil
      simp only [List.nil_append] at h2 h3
      by_cases hd : options.DefaultLocale ∉ av
      · rw [if_pos hd] at h; cases h
      · exact ⟨h1, h2, h3 ▸ not_not.mp hd⟩
  · rintro ⟨h1, h2, h3⟩
    obtain ⟨Ls', cur', h⟩ := New.loop_append unmarshal options.DefaultLocale [] options.Locales []
      { locale := [], data := [] } [] h1 (by simpa using h2)
    simp only [List.append_nil, List.nil_append, New.loop] at h
    unfold New
    rw [h]
    simp only [if_neg (not_not.mpr h3)]
    exact ⟨_, rfl⟩

/-- In a list with a repeated image under `f` there is a first position whose
image occurred before. -/
theorem exists_first_repeat {α β : Type} (f : α → β) :
    ∀ l : List α, ¬ (l.map f).Nodup →
      ∃ pre e post, l = pre ++ e :: post ∧ (pre.map f).Nodup ∧ f e ∈ pre.map f := by
  intro l
  induction l using List.reverseRecOn with
  | nil => intro h; exact absurd List.nodup_nil h
  | append_singleton init x ih =>
    intro h
    by_cases hn : (init.map f).Nodup
    · refine ⟨init, x, [], rfl, hn, ?_⟩
      by_contra hx
      apply h
      rw [List.map_append]
      exact List.Nodup.append hn (List.nodup_singleton _) (by simpa using hx)
    · obtain ⟨pre, e, post, h1, h2, h3⟩ := ih hn
      exact ⟨pre, e, post ++ [x], by rw [h1]; simp, h2, h3⟩

theorem ChangeLocale.scan_ctx (ctx : Context ν) (locale : GoString) :
    ∀ ls : List (Locale ν),
      (ChangeLocale.scan ctx locale ls).ctx = ctx
      ∨ ∃ l ∈ ls, l.locale = locale ∧ (ChangeLocale.scan ctx locale ls).ctx = { ctx with currentLocale := l } := by
  intro ls
  induction ls with
  | nil => left; rfl
  | cons l ls ih =>
    unfold ChangeLocale.scan
    split
    next h => right; exact ⟨l, by simp, h, rfl⟩
    next h =>
      rcases ih with h1 | ⟨l', hl', h2, h3⟩
      · left; exact h1
      · right; exact ⟨l', List.mem_cons_of_mem _ hl', h2, h3⟩

theorem ChangeLocale_ctx (ctx : Context ν) (locale : GoString) :
    (ChangeLocale ctx locale).ctx = ctx
    ∨ ∃ l ∈ ctx.locales, l.locale = locale ∧ (ChangeLocale ctx locale).ctx = { ctx with currentLocale := l } := by
  unfold ChangeLocale
  split
  · left; rfl
  · split
    · left; rfl
    · exact ChangeLocale.scan_ctx ctx locale ctx.locales

theorem ChangeLocale_inv {ctx : Context ν} (h : Inv ctx) (locale : GoString) :
    Inv (ChangeLocale ctx locale).ctx := by
  rcases ChangeLocale_ctx ctx locale with h1 | ⟨l, hl, _, h1⟩
  · rw [h1]; exact h
  · rw [h1]; exact ⟨h.available, h.nodup, hl, h.separator⟩

theorem Reachable.inv {unmarshal : Unmarshal ν} {options : Options} {ctx : Context ν}
    (h : Reachable unmarshal options ctx) : Inv ctx := by
  induction h with
  | new h => exact (New_ok h).1
  | change locale _ ih => exact ChangeLocale_inv ih locale

/-! ## Evaluating `T` -/

theorem T.selectTree_mem (d : Tree ν) :
    ∀ (ls : List (Locale ν)) (l : Locale ν), (ls.map (fun l => l.locale)).Nodup → l ∈ ls →
      T.selectTree l.locale d ls = l.data := by
  intro ls
  induction ls with
  | nil => intro l _ hl; cases hl
  | cons x xs ih =>
    intro l hnd hl
    simp only [List.map_cons, List.nodup_cons] at hnd
    unfold T.selectTree
    by_cases hx : x.locale = l.locale
    · rw [if_pos hx]
      rcases List.mem_cons.mp hl with h1 | h1
      · rw [h1]
      · exfalso
        apply hnd.1
        rw [hx]
        exact List.mem_map_of_mem (fun l => l.locale) h1
    · rw [if_neg hx]
      rcases List.mem_cons.mp hl with h1 | h1
      · exact absurd (by rw [h1]) hx
      · exact ih l hnd.2 h1

theorem T.selectTree_not_mem (d : Tree ν) (loc : GoString) :
    ∀ (ls : List (Locale ν)), (∀ l ∈ ls, l.locale ≠ loc) → T.selectTree loc d ls = d := by
  intro ls
  induction ls with
  | nil => intro _; rfl
  | cons x xs ih =>
    intro h
    unfold T.selectTree
    rw [if_neg (h x (by simp))]
    exact ih (fun l hl => h l (List.mem_cons_of_mem _ hl))

theorem T.descend_of_Resolves {root : Value ν} {keys : List GoString} {v : Value ν}
    (h : Resolves root keys v) : T.descend root keys = .ok (some v) := by
  induction h with
  | refl v => cases v <;> rfl
  | step hk _ ih => simp only [T.descend, hk]; exact ih

theorem T.descend_of_MissingKey {root : Value ν} {keys : List GoString}
    (h : MissingKey root keys) : T.descend root keys = .ok none := by
  induction h with
  | here hk => simp only [T.descend, hk]
  | step hk _ ih => simp only [T.descend, hk]; exact ih

/-- The tree `T` walks when the locale `loc` is requested. -/
theorem T.tree_of_mem {ctx : Context ν} (hInv : Inv ctx) {l : Locale ν} (hl : l ∈ ctx.locales) :
    T.selectTree l.locale ctx.currentLocale.data ctx.locales = l.data :=
  T.selectTree_mem _ _ _ (hInv.available ▸ hInv.nodup) hl

/-- Evaluation of `T` without options, in a context that satisfies the invariant: the walk
over the cursor's tree decides the result. -/
theorem T_nil_eq (fmtNum : ν → GoString) {ctx : Context ν} (hInv : Inv ctx) (path : GoString) :
    T fmtNum ctx path [] =
      match T.descend (.object ctx.currentLocale.data) (Split path ctx.options.Separator) with
      | .error p => .error p
      | .ok none => .ok (missingTranslation ctx.currentLocale.locale path)
      | .ok (some v) => .ok (v.render fmtNum) := by
  have hne : Split path ctx.options.Separator ≠ [] := Split_ne_nil _ hInv.separator
  have hlen : (Split path ctx.options.Separator).length ≠ 0 := by
    simpa [List.length_eq_zero] using hne
  have htree : (if ctx.currentLocale.locale ≠ [] then
        T.selectTree ctx.currentLocale.locale ctx.currentLocale.data ctx.locales
      else ctx.currentLocale.data) = ctx.currentLocale.data := by
    split
    · exact T.tree_of_mem hInv hInv.current
    · rfl
  simp only [T, T.readOptions, if_neg hlen, htree, Join_Split, missingTranslation]

/-- Evaluation of `T` with an options map, once the keys, the requested locale and the tree
to walk are known. -/
theorem T_map_eq (fmtNum : ν → GoString) {ctx : Context ν} (path : GoString) (m : Tree ν)
    {keys : List GoString} {loc : GoString} {tree : Tree ν}
    (hro : T.readOptions ctx.options.Separator (Split path ctx.options.Separator)
      ctx.currentLocale.locale [.optionsMap (some m)] = .ok (keys, loc))
    (hne : keys ≠ [])
    (htree : (if loc ≠ [] then T.selectTree loc ctx.currentLocale.data ctx.locales
      else ctx.currentLocale.data) = tree) :
    T fmtNum ctx path [.optionsMap (some m)] =
      match T.descend (.object tree) keys with
      | .error p => .error p
      | .ok none => .ok (missingTranslation loc (Join keys ctx.options.Separator))
      | .ok (some v) => .ok (T.substitute fmtNum (v.render fmtNum) m) := by
  have hlen : keys.length ≠ 0 := by simpa [List.length_eq_zero] using hne
  unfold T
  simp only [hro, if_neg hlen, htree, missingTranslation]

theorem placeholder_ne_nil (key : GoString) : placeholder key ≠ [] := by
  simp [placeholder]

theorem T.descend_ok_some {keys : List GoString} :
    ∀ {root v : Value ν}, T.descend root keys = .ok (some v) → Resolves root keys v := by
  induction keys with
  | nil =>
    intro root v h
    cases root <;> simp only [T.descend, Except.ok.injEq, Option.some.injEq] at h <;>
      subst h <;> exact .refl _
  | cons key keys ih =>
    intro root v h
    cases root with
    | object m =>
      unfold T.descend at h
      cases hk : lookup key m with
      | none => rw [hk] at h; cases h
      | some child =>
        rw [hk] at h
        exact .step hk (ih h)
    | null => cases h
    | bool b => cases h
    | number n => cases h
    | str s => cases h
    | array xs => cases h

theorem T.substitute_eq_foldl (fmtNum : ν → GoString) :
    ∀ (m : Tree ν) (val : GoString),
      T.substitute fmtNum val m
        = m.foldl (fun val e => ReplaceAll val (placeholder e.1) (e.2.render fmtNum)) val := by
  intro m
  induction m with
  | nil => intro val; rfl
  | cons e rest ih =>
    intro val
    obtain ⟨k, v⟩ := e
    simp only [T.substitute, List.foldl_cons]
    exact ih _

/-- The loop of `T` is the sequence of its passes, one per entry in the order
of iteration. -/
theorem T.substitute_eq_passes (fmtNum : ν → GoString) (m : Tree ν) (val : GoString) :
    T.substitute fmtNum val m = m.foldl (substitutePass fmtNum) val :=
  T.substitute_eq_foldl fmtNum m val

/-- The tree `T` walks for the cursor itself. -/
theorem T.tree_of_current {ctx : Context ν} (hInv : Inv ctx) :
    (if ctx.currentLocale.locale ≠ [] then
        T.selectTree ctx.currentLocale.locale ctx.currentLocale.data ctx.locales
      else ctx.currentLocale.data) = ctx.currentLocale.data := by
  split
  · exact T.tree_of_mem hInv hInv.current
  · rfl

/-- Evaluation of `T` with an options map whose `scope` entry contributes the segments
`scopeKeys` and whose `locale` entry selects the registry entry `l`. -/
theorem T_map_walk (fmtNum : ν → GoString) {ctx : Context ν} (hInv : Inv ctx) (path : GoString)
    (m : Tree ν) (scopeKeys : List GoString) (l : Locale ν)
    (hscope : (lookup "scope".toList m = none ∧ scopeKeys = [])
      ∨ ∃ s, s ≠ [] ∧ lookup "scope".toList m = some (.str s)
          ∧ scopeKeys = Split s ctx.options.Separator)
    (hlocale : (lookup "locale".toList m = none ∧ l = ctx.currentLocale)
      ∨ (lookup "locale".toList m = some (.str l.locale) ∧ l ∈ ctx.locales ∧ l.locale ≠ [])) :
    T fmtNum ctx path [.optionsMap (some m)] =
      match T.descend (.object l.data) (scopeKeys ++ Split path ctx.options.Separator) with
      | .error p => .error p
      | .ok none =>
        .ok (missingTranslation l.locale
          (Join (scopeKeys ++ Split path ctx.options.Separator) ctx.options.Separator))
      | .ok (some v) => .ok (T.substitute fmtNum (v.render fmtNum) m) := by
  have hro : T.readOptions ctx.options.Separator (Split path ctx.options.Separator)
      ctx.currentLocale.locale [.optionsMap (some m)]
        = .ok (scopeKeys ++ Split path ctx.options.Separator, l.locale) := by
    simp only [T.readOptions]
    have h1 : (match lookup "scope".toList m with
        | some (.str scope) =>
          if scope ≠ [] then
            Split scope ctx.options.Separator ++ Split path ctx.options.Separator
          else Split path ctx.options.Separator
        | _ => Split path ctx.options.Separator)
          = scopeKeys ++ Split path ctx.options.Separator := by
      rcases hscope with ⟨h, rfl⟩ | ⟨s, hs, h, rfl⟩
      · rw [h]; rfl
      · rw [h]; simp only [if_pos hs]
    have h2 : (match lookup "locale".toList m with
        | some (.str locale) => locale
        | _ => ctx.currentLocale.locale) = l.locale := by
      rcases hlocale with ⟨h, rfl⟩ | ⟨h, _, _⟩
      · rw [h]
      · rw [h]
    rw [h1, h2]
  have hne : scopeKeys ++ Split path ctx.options.Separator ≠ [] := by
    intro h
    exact Split_ne_nil path hInv.separator (List.append_eq_nil.mp h).2
  have htree : (if l.locale ≠ [] then T.selectTree l.locale ctx.currentLocale.data ctx.locales
      else ctx.currentLocale.data) = l.data := by
    rcases hlocale with ⟨_, rfl⟩ | ⟨_, hl, hne⟩
    · exact T.tree_of_current hInv
    · rw [if_pos hne]
      exact T.tree_of_mem hInv hl
  exact T_map_eq fmtNum path m hro hne htree

/-! ## Substitution in a template of plain pieces -/

theorem placeholder_eq (key : GoString) :
    placeholder key = '\x7b' :: '\x7b' :: (key ++ ['\x7d', '\x7d']) := by
  simp [placeholder]

/-- No occurrence of a text that begins with an opening brace starts inside a
text without opening braces. -/
theorem occurrence_after_plain_text (x : GoString) :
    ∀ (s : GoString), '\x7b' ∉ s → ∀ (R a b : GoString),
      s ++ R = a ++ ('\x7b' :: x) ++ b → s.length ≤ a.length := by
  intro s
  induction s with
  | nil => intro _ R a b _; simp
  | cons c s ih =>
    intro hs R a b h
    cases a with
    | nil =>
      simp only [List.nil_append, List.cons_append, List.cons.injEq] at h
      exact absurd (h.1 ▸ List.mem_cons_self c s) hs
    | cons c' a' =>
      simp only [List.cons_append, List.cons.injEq] at h
      have := ih (fun hm => hs (List.mem_cons_of_mem _ hm)) R a' b (by simpa using h.2)
      simp only [List.length_cons]
      omega

/-- Two keys without closing braces that are each followed by a closing brace
at the same place are equal. -/
theorem key_eq_of_closing :
    ∀ (a k : GoString), '\x7d' ∉ a → '\x7d' ∉ k → ∀ (x y : GoString),
      a ++ '\x7d' :: x = k ++ '\x7d' :: y → a = k := by
  intro a
  induction a with
  | nil =>
    intro k _ hk x y h
    cases k with
    | nil => rfl
    | cons c k' =>
      simp only [List.nil_append, List.cons_append, List.cons.injEq] at h
      exact absurd (h.1 ▸ List.mem_cons_self c k') hk
  | cons c a' ih =>
    intro k ha hk x y h
    cases k with
    | nil =>
      simp only [List.nil_append, List.cons_append, List.cons.injEq] at h
      exact absurd (h.1 ▸ List.mem_cons_self c a') ha
    | cons c' k' =>
      simp only [List.cons_append, List.cons.injEq] at h
      rw [h.1, ih k' (fun hm => ha (List.mem_cons_of_mem _ hm))
        (fun hm => hk (List.mem_cons_of_mem _ hm)) x y h.2]

/-- No occurrence of `{{a}}` starts inside the placeholder of another key. -/
theorem occurrence_after_other_placeholder {a k : GoString} (ha : '\x7d' ∉ a)
    (hk₁ : '\x7b' ∉ k) (hk₂ : '\x7d' ∉ k) (hne : a ≠ k) (R pre b : GoString)
    (h : placeholder k ++ R = pre ++ placeholder a ++ b) :
    (placeholder k).length ≤ pre.length := by
  rw [placeholder_eq, placeholder_eq] at h
  rw [placeholder_eq]
  cases pre with
  | nil =>
    simp only [List.nil_append, List.cons_append, List.cons.injEq, true_and,
      List.append_assoc] at h
    exact absurd (key_eq_of_closing a k ha hk₂ _ _ h.symm) hne
  | cons c₁ pre₁ =>
    cases pre₁ with
    | nil =>
      simp only [List.cons_append, List.nil_append, List.cons.injEq, List.append_assoc] at h
      cases k with
      | nil =>
        simp only [List.nil_append, List.cons_append, List.cons.injEq] at h
        exact absurd h.2.2.1 (by decide)
      | cons c k' =>
        simp only [List.cons_append, List.cons.injEq] at h
        exact absurd (h.2.2.1 ▸ List.mem_cons_self c k') hk₁
    | cons c₂ pre₂ =>
      simp only [List.cons_append, List.cons.injEq] at h
      have hplain : '\x7b' ∉ k ++ ['\x7d', '\x7d'] := by
        intro hm
        rcases List.mem_append.mp hm with h1 | h1
        · exact hk₁ h1
        · exact absurd h1 (by decide)
      have := occurrence_after_plain_text ('\x7b' :: (a ++ ['\x7d', '\x7d']))
        (k ++ ['\x7d', '\x7d']) hplain R pre₂ b (by simpa using h.2.2)
      simp only [List.length_cons, List.length_append, List.length_nil] at this ⊢
      omega

theorem append_eq_append_of_length_le {x s a t : GoString} (h : x ++ s = a ++ t)
    (hlen : x.length ≤ a.length) : ∃ a', a = x ++ a' ∧ s = a' ++ t := by
  have hpre : x <+: a :=
    List.prefix_of_prefix_length_le (List.prefix_append x s) (h ▸ List.prefix_append a t) hlen
  obtain ⟨a', rfl⟩ := hpre
  refine ⟨a', rfl, ?_⟩
  rw [List.append_assoc] at h
  exact List.append_cancel_left h

/-- A text in front, inside which no occurrence of `old` starts, is copied. -/
theorem ReplacedAll.prepend {old new : GoString} (x : GoString) {s r : GoString}
    (h : ReplacedAll old new s r)
    (hx : ∀ a b : GoString, x ++ s = a ++ old ++ b → x.length ≤ a.length) :
    ReplacedAll old new (x ++ s) (x ++ r) := by
  cases h with
  | done hno =>
    apply ReplacedAll.done
    rintro ⟨a, b, hab⟩
    obtain ⟨a', rfl, hs⟩ := append_eq_append_of_length_le
      (show x ++ s = a ++ (old ++ b) by rw [← List.append_assoc]; exact hab.symm)
      (hx a b hab.symm)
    exact hno ⟨a', b, by rw [hs, List.append_assoc]⟩
  | @cut pre rest out hfirst hrest =>
    have hfirst' : ∀ a b : GoString, (x ++ pre) ++ old ++ rest = a ++ old ++ b →
        (x ++ pre).length ≤ a.length := by
      intro a b hab
      have hab' : x ++ (pre ++ old ++ rest) = a ++ old ++ b := by
        simpa [List.append_assoc] using hab
      obtain ⟨a', rfl, hs⟩ := append_eq_append_of_length_le
        (show x ++ (pre ++ old ++ rest) = a ++ (old ++ b) by
          rw [← List.append_assoc a]; exact hab')
        (hx a b hab')
      have := hfirst a' b (by rw [hs, List.append_assoc])
      simp only [List.length_append]
      omega
    have hcut := @ReplacedAll.cut old new _ _ _ hfirst' hrest
    simpa [List.append_assoc] using hcut

theorem Segment.substOne_plain {key new : GoString} (hnew : '\x7b' ∉ new) {seg : Segment}
    (h : seg.Plain) : (seg.substOne key new).Plain := by
  cases seg with
  | lit text => exact h
  | hole k =>
    by_cases hk : key = k
    · simp only [Segment.substOne, if_pos hk]
      exact hnew
    · simp only [Segment.substOne, if_neg hk]
      exact h

/-- In a template of plain pieces, replacing `{{key}}` replaces exactly the
placeholders with that key. -/
theorem renderSegments_ReplacedAll {key : GoString} (hkey : '\x7d' ∉ key) (new : GoString) :
    ∀ segs : List Segment, (∀ seg ∈ segs, seg.Plain) →
      ReplacedAll (placeholder key) new (renderSegments segs)
        (renderSegments (segs.map (Segment.substOne key new))) := by
  intro segs
  induction segs with
  | nil =>
    intro _
    exact .done (fun h => placeholder_ne_nil key (List.eq_nil_of_infix_nil h))
  | cons seg rest ih =>
    intro hplain
    have hrest := ih (fun s hs => hplain s (List.mem_cons_of_mem _ hs))
    have hseg := hplain seg (List.mem_cons_self _ _)
    cases seg with
    | lit text =>
      simp only [List.map_cons, Segment.substOne, renderSegments]
      apply ReplacedAll.prepend text hrest
      intro a b hab
      rw [placeholder_eq] at hab
      exact occurrence_after_plain_text _ text hseg _ a b hab
    | hole k =>
      by_cases hk : key = k
      · subst hk
        simp only [List.map_cons, Segment.substOne, if_true, renderSegments]
        have hcut := @ReplacedAll.cut (placeholder key) new [] _ _
          (fun a b _ => Nat.zero_le _) hrest
        simpa using hcut
      · simp only [List.map_cons, Segment.substOne, if_neg hk, renderSegments]
        apply ReplacedAll.prepend (placeholder k) hrest
        intro a b hab
        exact occurrence_after_other_placeholder hkey hseg.1 hseg.2 hk _ a b hab

theorem ReplaceAll_renderSegments {key : GoString} (hkey : '\x7d' ∉ key) (new : GoString)
    (segs : List Segment) (hplain : ∀ seg ∈ segs, seg.Plain) :
    ReplaceAll (renderSegments segs) (placeholder key) new
      = renderSegments (segs.map (Segment.substOne key new)) :=
  ReplacedAll.unique (ReplaceAll_ReplacedAll _ _ (placeholder_ne_nil key))
    (renderSegments_ReplacedAll hkey new segs hplain)

theorem Segment.fill_cons (fmtNum : ν → GoString) (k : GoString) (v : Value ν) (rest : Tree ν)
    (seg : Segment) :
    Segment.fill fmtNum rest (seg.substOne k (v.render fmtNum))
      = Segment.fill fmtNum ((k, v) :: rest) seg := by
  cases seg with
  | lit text => rfl
  | hole k' =>
    by_cases hk : k = k'
    · simp only [Segment.substOne, Segment.fill, lookup, if_pos hk]
    · simp only [Segment.substOne, Segment.fill, lookup, if_neg hk]

theorem Segment.fill_nil (fmtNum : ν → GoString) (seg : Segment) :
    Segment.fill fmtNum ([] : Tree ν) seg = seg := by
  cases seg <;> rfl

theorem Segment.map_fill_nil (fmtNum : ν → GoString) :
    ∀ segs : List Segment, segs.map (Segment.fill fmtNum ([] : Tree ν)) = segs := by
  intro segs
  induction segs with
  | nil => rfl
  | cons seg rest ih => rw [List.map_cons, Segment.fill_nil, ih]

/-- The loop of `T` on a template of plain pieces is the simultaneous
substitution, when no key has a closing brace and no value an opening one. -/
theorem T.substitute_renderSegments (fmtNum : ν → GoString) :
    ∀ (m : Tree ν) (segs : List Segment), (∀ seg ∈ segs, seg.Plain) →
      (∀ e ∈ m, '\x7d' ∉ e.1 ∧ '\x7b' ∉ e.2.render fmtNum) →
      T.substitute fmtNum (renderSegments segs) m
        = renderSegments (segs.map (Segment.fill fmtNum m)) := by
  intro m
  induction m with
  | nil =>
    intro segs _ _
    simp only [T.substitute]
    rw [Segment.map_fill_nil]
  | cons e rest ih =>
    intro segs hplain hm
    obtain ⟨k, v⟩ := e
    obtain ⟨hk, hv⟩ := hm (k, v) (List.mem_cons_self _ _)
    simp only [T.substitute]
    rw [ReplaceAll_renderSegments hk _ segs hplain,
      ih (segs.map (Segment.substOne k (v.render fmtNum)))
        (fun seg hseg => by
          obtain ⟨s', hs', rfl⟩ := List.mem_map.mp hseg
          exact Segment.substOne_plain hv (hplain s' hs'))
        (fun e he => hm e (List.mem_cons_of_mem _ he)),
      List.map_map]
    congr 1
    apply List.map_congr_left
    intro seg _
    exact Segment.fill_cons fmtNum k v rest seg

/-! ## The options map as a finite map -/

theorem lookup_eq_none_iff (k : GoString) :
    ∀ m : Tree ν, lookup k m = none ↔ k ∉ m.map Prod.fst := by
  intro m
  induction m with
  | nil => simp [lookup]
  | cons e rest ih =>
    obtain ⟨k', v⟩ := e
    by_cases hk : k' = k
    · subst hk
      simp only [lookup, if_true]
      constructor
      · intro h; cases h
      · intro h; exact absurd (List.mem_cons_self _ _) h
    · simp only [lookup, if_neg hk, ih, List.map_cons, List.mem_cons, not_or]
      exact ⟨fun h => ⟨fun h' => hk h'.symm, h⟩, fun h => h.2⟩

theorem lookup_eq_some_iff (k : GoString) (v : Value ν) :
    ∀ m : Tree ν, (m.map Prod.fst).Nodup → (lookup k m = some v ↔ (k, v) ∈ m) := by
  intro m
  induction m with
  | nil => intro _; simp [lookup]
  | cons e rest ih =>
    intro hnd
    obtain ⟨k', v'⟩ := e
    simp only [List.map_cons, List.nodup_cons] at hnd
    by_cases hk : k' = k
    · subst hk
      simp only [lookup, if_true, Option.some.injEq, List.mem_cons, Prod.mk.injEq, true_and]
      constructor
      · intro h; exact Or.inl h.symm
      · rintro (h | h)
        · exact h.symm
        · exact absurd (List.mem_map_of_mem Prod.fst h) hnd.1
    · simp only [lookup, if_neg hk, ih hnd.2, List.mem_cons, Prod.mk.injEq]
      constructor
      · intro h; exact Or.inr h
      · rintro (h | h)
        · exact absurd h.1.symm hk
        · exact h

/-- A map read by key does not depend on the order of its entries. -/
theorem lookup_perm {m m' : Tree ν} (hperm : m.Perm m') (hnd : (m.map Prod.fst).Nodup)
    (k : GoString) : lookup k m = lookup k m' := by
  have hnd' : (m'.map Prod.fst).Nodup := (hperm.map Prod.fst).nodup_iff.mp hnd
  cases h : lookup k m with
  | none =>
    have h1 := (lookup_eq_none_iff k m).mp h
    have h2 : k ∉ m'.map Prod.fst := fun hm => h1 ((hperm.map Prod.fst).mem_iff.mpr hm)
    exact ((lookup_eq_none_iff k m').mpr h2).symm
  | some v =>
    have h1 := (lookup_eq_some_iff k v m hnd).mp h
    exact ((lookup_eq_some_iff k v m' hnd').mpr (hperm.mem_iff.mp h1)).symm

/-! ## Evaluating `ChangeLocale` -/

theorem Inv.entry_unique {ctx : Context ν} (hInv : Inv ctx) {l₁ l₂ : Locale ν}
    (h₁ : l₁ ∈ ctx.locales) (h₂ : l₂ ∈ ctx.locales) (h : l₁.locale = l₂.locale) : l₁ = l₂ :=
  List.inj_on_of_nodup_map (hInv.available ▸ hInv.nodup) h₁ h₂ h

theorem ChangeLocale.scan_mem (ctx : Context ν) :
    ∀ (ls : List (Locale ν)) (l : Locale ν), (ls.map (fun l => l.locale)).Nodup → l ∈ ls →
      ChangeLocale.scan ctx l.locale ls =
        { ctx := { ctx with currentLocale := l }
          err := none
          hookCalls := if ctx.onLocaleChange then [l.locale] else [] } := by
  intro ls
  induction ls with
  | nil => intro l _ hl; cases hl
  | cons x xs ih =>
    intro l hnd hl
    simp only [List.map_cons, List.nodup_cons] at hnd
    unfold ChangeLocale.scan
    by_cases hx : x.locale = l.locale
    · rw [if_pos hx]
      rcases List.mem_cons.mp hl with h1 | h1
      · rw [h1]
      · exfalso
        apply hnd.1
        rw [hx]
        exact List.mem_map_of_mem (fun l => l.locale) h1
    · rw [if_neg hx]
      rcases List.mem_cons.mp hl with h1 | h1
      · exact absurd (by rw [h1]) hx
      · exact ih l hnd.2 h1

/-- Switching to the identifier of a registry entry succeeds and puts the
cursor on that entry. -/
theorem ChangeLocale_mem {ctx : Context ν} (hInv : Inv ctx) {l : Locale ν} (hl : l ∈ ctx.locales) :
    (ChangeLocale ctx l.locale).err = none
      ∧ (ChangeLocale ctx l.locale).ctx = { ctx with currentLocale := l } := by
  have hav : l.locale ∈ ctx.availableLocales := by
    rw [hInv.available]
    exact List.mem_map_of_mem (fun l => l.locale) hl
  unfold ChangeLocale
  rw [if_neg (not_not.mpr hav)]
  by_cases hc : ctx.currentLocale.locale = l.locale
  · rw [if_pos hc]
    have : ctx.currentLocale = l := hInv.entry_unique hInv.current hl hc
    exact ⟨rfl, by rw [← this]⟩
  · rw [if_neg hc, ChangeLocale.scan_mem ctx _ _ (hInv.available ▸ hInv.nodup) hl]
    exact ⟨rfl, rfl⟩

/-! ## The tests of `i18ngo_test.go` -/

theorem test_New : New (testUnmarshal [enData, trData]) testOptions = .ok testCtx := by
  rfl

theorem test_Translate :
    T noNum testCtx "pages.login.buttons.login".toList [] = .ok "Login".toList
    ∧ T noNum (ChangeLocale testCtx "tr".toList).ctx "pages.login.buttons.login".toList []
        = .ok "Giriş".toList := by
  decide

theorem test_MissingTranslation :
    T noNum testCtx "pages.login.buttons.logout".toList []
      = .ok "missing translation for path 'en.pages.login.buttons.logout'".toList := by
  decide

theorem test_TranslateWithScope :
    T noNum testCtx "hello".toList
        [.optionsMap (some [("scope".toList, .str "common.greetings".toList)])]
      = .ok "Hello".toList := by
  decide

theorem enOnlyCtx_New (doc : Tree Nat) :
    New (testUnmarshal [doc]) enOnlyOptions = .ok (enOnlyCtx doc) := by
  rfl

/-! ## Resolution of a path (C1 - C3) -/

/-- C1: in a context built by `New` the separator is the configured one, or
`"."` when none is supplied; and if walking the segments of `path` from the
root of the current locale's tree descends through object nodes to a value
`v`, then `T(path)` without options returns the `%v` rendering of `v`. -/
theorem T_resolved (fmtNum : ν → GoString) (unmarshal : Unmarshal ν) (options : Options)
    (ctx : Context ν) (path : GoString) (v : Value ν)
    (hNew : New unmarshal options = .ok ctx)
    (hWalk : Resolves (.object ctx.currentLocale.data) (Split path ctx.options.Separator) v) :
    ctx.options.Separator = (if options.Separator = [] then ".".toList else options.Separator)
      ∧ T fmtNum ctx path [] = .ok (v.render fmtNum) := by
  obtain ⟨hInv, _, hsep, _⟩ := New_ok hNew
  refine ⟨hsep, ?_⟩
  rw [T_nil_eq fmtNum hInv, T.descend_of_Resolves hWalk]

theorem T_resolved_witness :
    New (testUnmarshal [enData, trData]) testOptions = .ok testCtx
      ∧ Resolves (.object testCtx.currentLocale.data)
          (Split "pages.login.buttons.login".toList testCtx.options.Separator)
          (.str "Login".toList)
      ∧ testCtx.options.Separator = ".".toList
      ∧ T noNum testCtx "pages.login.buttons.login".toList [] = .ok "Login".toList :=
  have hNew : New (testUnmarshal [enData, trData]) testOptions = .ok testCtx := by rfl
  have hWalk : Resolves (.object testCtx.currentLocale.data)
      (Split "pages.login.buttons.login".toList testCtx.options.Separator)
      (.str "Login".toList) :=
    .step rfl (.step rfl (.step rfl (.step rfl (.refl _))))
  ⟨hNew, hWalk,
    T_resolved noNum (testUnmarshal [enData, trData]) testOptions testCtx
      "pages.login.buttons.login".toList (.str "Login".toList) hNew hWalk⟩

/-- C2: in a context built by `New`, if the walk over the current locale's
tree arrives at an object node that lacks the next segment, `T(path)` without
options returns `"missing translation for path '<current locale>.<path>'"`;
the path shown is the segments joined again with the separator, which is
`path` itself. -/
theorem T_missing_key (fmtNum : ν → GoString) (unmarshal : Unmarshal ν) (options : Options)
    (ctx : Context ν) (path : GoString)
    (hNew : New unmarshal options = .ok ctx)
    (hMiss : MissingKey (.object ctx.currentLocale.data) (Split path ctx.options.Separator)) :
    T fmtNum ctx path []
        = .ok ("missing translation for path '".toList ++ CurrentLocale ctx ++ ".".toList
            ++ Join (Split path ctx.options.Separator) ctx.options.Separator ++ "'".toList)
      ∧ Join (Split path ctx.options.Separator) ctx.options.Separator = path := by
  obtain ⟨hInv, _, _, _⟩ := New_ok hNew
  refine ⟨?_, Join_Split _ _⟩
  rw [T_nil_eq fmtNum hInv, T.descend_of_MissingKey hMiss, Join_Split]
  rfl

theorem T_missing_key_witness :
    New (testUnmarshal [enData, trData]) testOptions = .ok testCtx
      ∧ MissingKey (.object testCtx.currentLocale.data)
          (Split "pages.login.buttons.logout".toList testCtx.options.Separator)
      ∧ T noNum testCtx "pages.login.buttons.logout".toList []
          = .ok "missing translation for path 'en.pages.login.buttons.logout'".toList :=
  have hNew : New (testUnmarshal [enData, trData]) testOptions = .ok testCtx := by rfl
  have hMiss : MissingKey (.object testCtx.currentLocale.data)
      (Split "pages.login.buttons.logout".toList testCtx.options.Separator) :=
    .step rfl (.step rfl (.step rfl (.here rfl)))
  ⟨hNew, hMiss,
    (T_missing_key noNum (testUnmarshal [enData, trData]) testOptions testCtx
      "pages.login.buttons.logout".toList hNew hMiss).1⟩

/-- C3 (the code departs from the claim): in the context `New` builds from the
document `{"a": {"b": "x", "n": null}}`, the calls `T("a.b.c")` and
`T("a.n.c")` do not return a diagnostic string: the walk reaches the string
leaf `a.b` (the null `a.n`) with the segment `c` left, and the unchecked
type assertion `current.(map[string]interface{})` panics. -/
theorem T_panics_below_leaf :
    New (testUnmarshal [leafDoc]) enOnlyOptions = .ok (enOnlyCtx leafDoc)
      ∧ T noNum (enOnlyCtx leafDoc) "a.b.c".toList [] = .error .interfaceConversion
      ∧ T noNum (enOnlyCtx leafDoc) "a.n.c".toList [] = .error .interfaceConversion :=
  ⟨rfl, by decide, by decide⟩


/-! ## Switching the locale (C4, C5) -/

/-- C4 (the code departs from the claim): in the context `New` builds from
the locales `en` and `tr`, with the document `{"a": {"b": "x", "n": null}}`
for `tr`, the call `ChangeLocale("tr")` returns no error and `CurrentLocale()`
is then `"tr"`; the subsequent `T("a.b")` returns the leaf `"x"` and
`T("a.c")` the diagnostic naming `tr`, but `T("a.b.c")` returns neither the
rendering of a leaf nor the diagnostic: the walk reaches the string leaf `a.b`
with the segment `c` left and the unchecked type assertion panics (the defect
of C3). -/
theorem ChangeLocale_then_T_panics :
    New (testUnmarshal [enData, leafDoc]) testOptions = .ok leafTrCtx
      ∧ ({ locale := "tr".toList, data := leafDoc } : Locale Nat) ∈ leafTrCtx.locales
      ∧ (ChangeLocale leafTrCtx "tr".toList).err = none
      ∧ CurrentLocale (ChangeLocale leafTrCtx "tr".toList).ctx = "tr".toList
      ∧ T noNum (ChangeLocale leafTrCtx "tr".toList).ctx "a.b".toList [] = .ok "x".toList
      ∧ T noNum (ChangeLocale leafTrCtx "tr".toList).ctx "a.c".toList []
        = .ok "missing translation for path 'tr.a.c'".toList
      ∧ T noNum (ChangeLocale leafTrCtx "tr".toList).ctx "a.b.c".toList []
        = .error .interfaceConversion
      ∧ T noNum (ChangeLocale leafTrCtx "tr".toList).ctx "a.n.c".toList []
        = .error .interfaceConversion :=
  have hleaf : T noNum (ChangeLocale leafTrCtx "tr".toList).ctx "a.b".toList []
      = .ok "x".toList := by decide
  have hmiss : T noNum (ChangeLocale leafTrCtx "tr".toList).ctx "a.c".toList []
      = .ok "missing translation for path 'tr.a.c'".toList := by decide
  have hbelow : T noNum (ChangeLocale leafTrCtx "tr".toList).ctx "a.b.c".toList []
      = .error .interfaceConversion := by decide
  have hnull : T noNum (ChangeLocale leafTrCtx "tr".toList).ctx "a.n.c".toList []
      = .error .interfaceConversion := by decide
  ⟨rfl, List.mem_cons_of_mem _ (List.mem_cons_self _ _), rfl, rfl, hleaf, hmiss, hbelow, hnull⟩

/-- Switching to a registry entry, as far as the walk goes well: in a context
built by `New`, for every registry entry `l`, `ChangeLocale(l.locale)` returns
no error, afterwards `CurrentLocale()` is `l.locale`, and `T(path)` without
options returns the rendering of the value the walk over `l.data` ends at, or
the missing-translation diagnostic naming `l.locale` when a segment is
missing. -/
theorem ChangeLocale_registered (fmtNum : ν → GoString) (unmarshal : Unmarshal ν)
    (options : Options) (ctx : Context ν) (l : Locale ν)
    (hNew : New unmarshal options = .ok ctx) (hl : l ∈ ctx.locales) :
    (ChangeLocale ctx l.locale).err = none
      ∧ CurrentLocale (ChangeLocale ctx l.locale).ctx = l.locale
      ∧ ∀ path : GoString,
          (∀ v, Resolves (.object l.data) (Split path ctx.options.Separator) v →
            T fmtNum (ChangeLocale ctx l.locale).ctx path [] = .ok (v.render fmtNum))
          ∧ (MissingKey (.object l.data) (Split path ctx.options.Separator) →
            T fmtNum (ChangeLocale ctx l.locale).ctx path []
              = .ok (missingTranslation l.locale path)) := by
  have hInv : Inv ctx := (New_ok hNew).1
  obtain ⟨herr, hctx⟩ := ChangeLocale_mem hInv hl
  have hInv' : Inv (ChangeLocale ctx l.locale).ctx := ChangeLocale_inv hInv _
  refine ⟨herr, by rw [hctx]; rfl, fun path => ⟨fun v hv => ?_, fun hm => ?_⟩⟩
  · rw [T_nil_eq fmtNum hInv', hctx]
    simp only
    rw [T.descend_of_Resolves hv]
  · rw [T_nil_eq fmtNum hInv', hctx]
    simp only
    rw [T.descend_of_MissingKey hm]

theorem ChangeLocale_registered_witness :
    New (testUnmarshal [enData, trData]) testOptions = .ok testCtx
      ∧ ({ locale := "tr".toList, data := trData } : Locale Nat) ∈ testCtx.locales
      ∧ (ChangeLocale testCtx "tr".toList).err = none
      ∧ CurrentLocale (ChangeLocale testCtx "tr".toList).ctx = "tr".toList
      ∧ T noNum (ChangeLocale testCtx "tr".toList).ctx "pages.login.buttons.login".toList []
          = .ok "Giriş".toList
      ∧ T noNum (ChangeLocale testCtx "tr".toList).ctx "pages.logout".toList []
          = .ok "missing translation for path 'tr.pages.logout'".toList :=
  have hNew : New (testUnmarshal [enData, trData]) testOptions = .ok testCtx := by rfl
  have hl : ({ locale := "tr".toList, data := trData } : Locale Nat) ∈ testCtx.locales :=
    List.mem_cons_of_mem _ (List.mem_cons_self _ _)
  have h := ChangeLocale_registered noNum (testUnmarshal [enData, trData]) testOptions testCtx
    { locale := "tr".toList, data := trData } hNew hl
  ⟨hNew, hl, h.1, h.2.1,
    (h.2.2 "pages.login.buttons.login".toList).1 (.str "Giriş".toList)
      (.step rfl (.step rfl (.step rfl (.step rfl (.refl _))))),
    (h.2.2 "pages.logout".toList).2 (.step rfl (.here rfl))⟩

/-- C5: in every context reachable from `New`, for every identifier `X` that
no registry entry carries, `ChangeLocale(X)` returns the error
`"locale 'X' is not available"`, calls no hook and leaves the context as it
was, so `CurrentLocale()` and every result of `T` are the same as before. -/
theorem ChangeLocale_unregistered (fmtNum : ν → GoString) (unmarshal : Unmarshal ν)
    (options : Options) (ctx : Context ν) (X : GoString)
    (hReach : Reachable unmarshal options ctx) (hX : ∀ l ∈ ctx.locales, l.locale ≠ X) :
    (ChangeLocale ctx X).err = some ("locale '".toList ++ X ++ "' is not available".toList)
      ∧ (ChangeLocale ctx X).hookCalls = []
      ∧ (ChangeLocale ctx X).ctx = ctx
      ∧ CurrentLocale (ChangeLocale ctx X).ctx = CurrentLocale ctx
      ∧ ∀ (path : GoString) (opts : List (Arg ν)),
          T fmtNum (ChangeLocale ctx X).ctx path opts = T fmtNum ctx path opts := by
  have hInv : Inv ctx := hReach.inv
  have hav : X ∉ ctx.availableLocales := by
    rw [hInv.available]
    intro hmem
    obtain ⟨l, hl, hlx⟩ := List.mem_map.mp hmem
    exact hX l hl hlx
  have hres : ChangeLocale ctx X =
      { ctx := ctx
        err := some ("locale '".toList ++ X ++ "' is not available".toList)
        hookCalls := [] } := by
    unfold ChangeLocale
    rw [if_pos hav]
  rw [hres]
  exact ⟨rfl, rfl, rfl, rfl, fun _ _ => rfl⟩

theorem ChangeLocale_unregistered_witness :
    Reachable (testUnmarshal [enData, trData]) testOptions (ChangeLocale testCtx "tr".toList).ctx
      ∧ (∀ l ∈ (ChangeLocale testCtx "tr".toList).ctx.locales, l.locale ≠ "fr".toList)
      ∧ (ChangeLocale (ChangeLocale testCtx "tr".toList).ctx "fr".toList).err
          = some "locale 'fr' is not available".toList
      ∧ CurrentLocale (ChangeLocale (ChangeLocale testCtx "tr".toList).ctx "fr".toList).ctx
          = "tr".toList :=
  have hReach : Reachable (testUnmarshal [enData, trData]) testOptions
      (ChangeLocale testCtx "tr".toList).ctx :=
    .change _ (.new (by rfl))
  have hX : ∀ l ∈ (ChangeLocale testCtx "tr".toList).ctx.locales, l.locale ≠ "fr".toList := by
    intro l hl
    have hl' : l ∈ [({ locale := "en".toList, data := enData } : Locale Nat),
        { locale := "tr".toList, data := trData }] := hl
    simp only [List.mem_cons, List.mem_singleton, List.not_mem_nil, or_false] at hl'
    rcases hl' with rfl | rfl <;> decide
  have h := ChangeLocale_unregistered noNum (testUnmarshal [enData, trData]) testOptions
    (ChangeLocale testCtx "tr".toList).ctx "fr".toList hReach hX
  ⟨hReach, hX, h.1, h.2.2.2.1⟩

/-! ## The locale override (C6) -/

/-- C6 as stated fails. With the document `{"lang": "{{locale}}"}` for `en`,
the path `lang` resolves to the leaf `"{{locale}}"`, yet
`T("lang", {locale: "en"})` returns `"en"`: the `locale` entry is itself
substituted. And with an entry registered under the empty identifier, the
override `{locale: ""}` is not applied: `T("k", {locale: ""})` returns the
leaf `"E"` of the current locale `en`, not the leaf `"N"` of `""`. -/
theorem T_locale_override_counterexample :
    (New (testUnmarshal [localeDoc]) enOnlyOptions = .ok (enOnlyCtx localeDoc)
      ∧ ({ locale := "en".toList, data := localeDoc } : Locale Nat) ∈ (enOnlyCtx localeDoc).locales
      ∧ Resolves (.object localeDoc)
          (Split "lang".toList (enOnlyCtx localeDoc).options.Separator)
          (.str "\x7b\x7blocale\x7d\x7d".toList)
      ∧ T noNum (enOnlyCtx localeDoc) "lang".toList
          [.optionsMap (some [("locale".toList, .str "en".toList)])] = .ok "en".toList
      ∧ T noNum (enOnlyCtx localeDoc) "lang".toList
          [.optionsMap (some [("locale".toList, .str "en".toList)])]
        ≠ .ok (Value.render noNum (.str "\x7b\x7blocale\x7d\x7d".toList)))
    ∧ (New (testUnmarshal [[("k".toList, .str "E".toList)], [("k".toList, .str "N".toList)]])
          emptyIdOptions = .ok emptyIdCtx
      ∧ ({ locale := [], data := [("k".toList, .str "N".toList)] } : Locale Nat) ∈ emptyIdCtx.locales
      ∧ Resolves (.object [("k".toList, .str "N".toList)])
          (Split "k".toList emptyIdCtx.options.Separator) (.str "N".toList : Value Nat)
      ∧ T noNum emptyIdCtx "k".toList [.optionsMap (some [("locale".toList, .str [])])]
        = .ok "E".toList
      ∧ T noNum emptyIdCtx "k".toList [.optionsMap (some [("locale".toList, .str [])])]
        ≠ .ok (Value.render noNum (.str "N".toList))) :=
  ⟨⟨rfl, List.mem_cons_self _ _, .step rfl (.refl _), by decide, by decide⟩,
    ⟨rfl, List.mem_cons_of_mem _ (List.mem_cons_self _ _), .step rfl (.refl _), by decide,
      by decide⟩⟩

/-- C6, amended: in every reachable context (whatever locale is selected), for
every registry entry `l` with a non-empty identifier and every path that
resolves to a value `v` in `l.data`, `T(path, {locale: l.locale})` returns the
rendering of `v` with every `{{locale}}` replaced by `l.locale`; it is the
rendering of `v` itself when `{{locale}}` does not occur in it. -/
theorem T_locale_override (fmtNum : ν → GoString) (unmarshal : Unmarshal ν) (options : Options)
    (ctx : Context ν) (l : Locale ν) (path : GoString) (v : Value ν)
    (hReach : Reachable unmarshal options ctx) (hl : l ∈ ctx.locales) (hne : l.locale ≠ [])
    (hWalk : Resolves (.object l.data) (Split path ctx.options.Separator) v) :
    T fmtNum ctx path [.optionsMap (some [("locale".toList, .str l.locale)])]
        = .ok (ReplaceAll (v.render fmtNum) (placeholder "locale".toList) l.locale)
      ∧ (¬ placeholder "locale".toList <:+: v.render fmtNum →
          T fmtNum ctx path [.optionsMap (some [("locale".toList, .str l.locale)])]
            = .ok (v.render fmtNum)) := by
  have hT := T_map_walk fmtNum hReach.inv path [("locale".toList, .str l.locale)] [] l
    (.inl ⟨by simp only [lookup, if_neg (show "locale".toList ≠ "scope".toList by decide)], rfl⟩)
    (.inr ⟨by simp only [lookup, if_pos], hl, hne⟩)
  rw [List.nil_append, T.descend_of_Resolves hWalk] at hT
  simp only [T.substitute, Value.render] at hT
  refine ⟨hT, fun hno => ?_⟩
  rw [hT, ReplaceAll_eq_self _ hno]

theorem T_locale_override_witness :
    Reachable (testUnmarshal [enData, trData]) testOptions testCtx
      ∧ ({ locale := "tr".toList, data := trData } : Locale Nat) ∈ testCtx.locales
      ∧ "tr".toList ≠ []
      ∧ Resolves (.object trData)
          (Split "pages.login.buttons.login".toList testCtx.options.Separator)
          (.str "Giriş".toList)
      ∧ CurrentLocale testCtx = "en".toList
      ∧ T noNum testCtx "pages.login.buttons.login".toList
          [.optionsMap (some [("locale".toList, .str "tr".toList)])] = .ok "Giriş".toList :=
  have hReach : Reachable (testUnmarshal [enData, trData]) testOptions testCtx := .new (by rfl)
  have hl : ({ locale := "tr".toList, data := trData } : Locale Nat) ∈ testCtx.locales :=
    List.mem_cons_of_mem _ (List.mem_cons_self _ _)
  have hWalk : Resolves (.object trData)
      (Split "pages.login.buttons.login".toList testCtx.options.Separator)
      (.str "Giriş".toList) :=
    .step rfl (.step rfl (.step rfl (.step rfl (.refl _))))
  ⟨hReach, hl, by decide, hWalk, rfl,
    (T_locale_override noNum (testUnmarshal [enData, trData]) testOptions testCtx
      { locale := "tr".toList, data := trData } "pages.login.buttons.login".toList
      (.str "Giriş".toList) hReach hl (by decide) hWalk).2 (by decide)⟩

/-! ## The scope prefix (C7) -/

/-- C7 as stated fails, in two ways. With the default separator and the
document `{"a": {"b": "{{scope}}-{{locale}}"}}`, `T("b", {scope: "a"})`
returns `"a-{{locale}}"` while `T("a.b")` returns `"{{scope}}-{{locale}}"`:
the `scope` entry is itself substituted. With the separator `"aa"` and the
document `{"xa": {"y": "V"}}`, `T("y", {scope: "xa"})` returns `"V"` while
`T("xaaay")` splits into `x`, `ay` and reports a missing translation. -/
theorem T_scope_composition_counterexample :
    (New (testUnmarshal [reservedDoc]) enOnlyOptions = .ok (enOnlyCtx reservedDoc)
      ∧ T noNum (enOnlyCtx reservedDoc) "b".toList
          [.optionsMap (some [("scope".toList, .str "a".toList)])]
        = .ok "a-\x7b\x7blocale\x7d\x7d".toList
      ∧ T noNum (enOnlyCtx reservedDoc)
          ("a".toList ++ (enOnlyCtx reservedDoc).options.Separator ++ "b".toList) []
        = .ok "\x7b\x7bscope\x7d\x7d-\x7b\x7blocale\x7d\x7d".toList
      ∧ T noNum (enOnlyCtx reservedDoc) "b".toList
          [.optionsMap (some [("scope".toList, .str "a".toList)])]
        ≠ T noNum (enOnlyCtx reservedDoc)
          ("a".toList ++ (enOnlyCtx reservedDoc).options.Separator ++ "b".toList) [])
    ∧ (New (testUnmarshal [borderDoc]) borderOptions = .ok borderCtx
      ∧ T noNum borderCtx "y".toList [.optionsMap (some [("scope".toList, .str "xa".toList)])]
        = .ok "V".toList
      ∧ T noNum borderCtx ("xa".toList ++ borderCtx.options.Separator ++ "y".toList) []
        = .ok "missing translation for path 'en.xaaay'".toList
      ∧ T noNum borderCtx "y".toList [.optionsMap (some [("scope".toList, .str "xa".toList)])]
        ≠ T noNum borderCtx ("xa".toList ++ borderCtx.options.Separator ++ "y".toList) []) :=
  ⟨⟨rfl, by decide, by decide, by decide⟩, ⟨rfl, by decide, by decide, by decide⟩⟩

/-- C7, amended: in every reachable context whose separator has no border (as
every one-character separator, the default `"."` among them), for every path
and every non-empty scope, `T(path, {scope: s})` walks the same segments as
`T(s + separator + path)`. When the walk ends at a value, the call without
options returns its rendering `r` and the call with the scope returns `r` with
every `{{scope}}` replaced by `s`, so the two agree when `{{scope}}` does not
occur in `r`; when the walk does not end at a value, the two calls agree. -/
theorem T_scope_composition (fmtNum : ν → GoString) (unmarshal : Unmarshal ν) (options : Options)
    (ctx : Context ν) (path scope : GoString)
    (hReach : Reachable unmarshal options ctx) (hub : Unbordered ctx.options.Separator)
    (hs : scope ≠ []) :
    (∀ v, Resolves (.object ctx.currentLocale.data)
        (Split (scope ++ ctx.options.Separator ++ path) ctx.options.Separator) v →
      T fmtNum ctx (scope ++ ctx.options.Separator ++ path) [] = .ok (v.render fmtNum)
        ∧ T fmtNum ctx path [.optionsMap (some [("scope".toList, .str scope)])]
          = .ok (ReplaceAll (v.render fmtNum) (placeholder "scope".toList) scope)
        ∧ (¬ placeholder "scope".toList <:+: v.render fmtNum →
            T fmtNum ctx path [.optionsMap (some [("scope".toList, .str scope)])]
              = T fmtNum ctx (scope ++ ctx.options.Separator ++ path) []))
    ∧ ((∀ v, ¬ Resolves (.object ctx.currentLocale.data)
        (Split (scope ++ ctx.options.Separator ++ path) ctx.options.Separator) v) →
      T fmtNum ctx path [.optionsMap (some [("scope".toList, .str scope)])]
        = T fmtNum ctx (scope ++ ctx.options.Separator ++ path) []) := by
  have hInv : Inv ctx := hReach.inv
  have hkeys := Split_append hInv.separator hub scope path
  have hT := T_map_walk fmtNum hInv path [("scope".toList, .str scope)]
    (Split scope ctx.options.Separator) ctx.currentLocale
    (.inr ⟨scope, hs, by simp only [lookup, if_pos], rfl⟩)
    (.inl ⟨by simp only [lookup, if_neg (show "scope".toList ≠ "locale".toList by decide)], rfl⟩)
  have hN := T_nil_eq fmtNum hInv (scope ++ ctx.options.Separator ++ path)
  rw [← hkeys] at hT
  rw [Join_Split] at hT
  constructor
  · intro v hv
    rw [T.descend_of_Resolves hv] at hT hN
    simp only [T.substitute, Value.render] at hT
    refine ⟨hN, hT, fun hno => ?_⟩
    rw [hT, hN, ReplaceAll_eq_self _ hno]
  · intro hno
    rw [hT, hN]
    cases hd : T.descend (.object ctx.currentLocale.data)
        (Split (scope ++ ctx.options.Separator ++ path) ctx.options.Separator) with
    | error e => rfl
    | ok r =>
      cases r with
      | none => rfl
      | some v => exact absurd (T.descend_ok_some hd) (hno v)

theorem T_scope_composition_witness :
    Reachable (testUnmarshal [enData, trData]) testOptions testCtx
      ∧ Unbordered testCtx.options.Separator
      ∧ "common.greetings".toList ≠ []
      ∧ Resolves (.object testCtx.currentLocale.data)
          (Split ("common.greetings".toList ++ testCtx.options.Separator ++ "hello".toList)
            testCtx.options.Separator)
          (.str "Hello".toList)
      ∧ T noNum testCtx "hello".toList
          [.optionsMap (some [("scope".toList, .str "common.greetings".toList)])]
        = T noNum testCtx "common.greetings.hello".toList [] :=
  have hReach : Reachable (testUnmarshal [enData, trData]) testOptions testCtx := .new (by rfl)
  have hub : Unbordered testCtx.options.Separator := Unbordered_singleton '.'
  have hWalk : Resolves (.object testCtx.currentLocale.data)
      (Split ("common.greetings".toList ++ testCtx.options.Separator ++ "hello".toList)
        testCtx.options.Separator)
      (.str "Hello".toList) :=
    .step rfl (.step rfl (.step rfl (.refl _)))
  ⟨hReach, hub, by decide, hWalk,
    ((T_scope_composition noNum (testUnmarshal [enData, trData]) testOptions testCtx "hello".toList
      "common.greetings".toList hReach hub (by decide)).1 (.str "Hello".toList) hWalk).2.2
      (by decide)⟩

/-! ## Reserved keys (C8) -/

/-- C8 as stated fails: with the document
`{"a": {"b": "{{scope}}-{{locale}}"}}` for `en`, the call
`T("b", {scope: "a", locale: "en"})` returns `"a-en"`, in either order of the
two entries; `{{scope}}` and `{{locale}}` are not left verbatim. -/
theorem T_reserved_keys_counterexample :
    New (testUnmarshal [reservedDoc]) enOnlyOptions = .ok (enOnlyCtx reservedDoc)
      ∧ T noNum (enOnlyCtx reservedDoc) "b".toList
          [.optionsMap (some [("scope".toList, .str "a".toList),
            ("locale".toList, .str "en".toList)])] = .ok "a-en".toList
      ∧ T noNum (enOnlyCtx reservedDoc) "b".toList
          [.optionsMap (some [("locale".toList, .str "en".toList),
            ("scope".toList, .str "a".toList)])] = .ok "a-en".toList
      ∧ T noNum (enOnlyCtx reservedDoc) "b".toList
          [.optionsMap (some [("scope".toList, .str "a".toList),
            ("locale".toList, .str "en".toList)])]
        ≠ .ok "\x7b\x7bscope\x7d\x7d-\x7b\x7blocale\x7d\x7d".toList :=
  ⟨rfl, by decide, by decide, by decide⟩

/-- C8, amended: the reserved keys are not excluded from the substitution. In
every reachable context, for an options map `m` that carries a `scope` entry
(a non-empty string, whose segments `scopeKeys` are put in front of the path)
and/or a `locale` entry (the non-empty identifier of a registry entry `l`; the
cursor when there is no such entry): if the walk ends at a value `v`, `T`
returns the rendering of `v` after one `strings.ReplaceAll` of `{{key}}` per
entry of `m` in the order of iteration, the `scope` and `locale` entries
included. -/
theorem T_reserved_keys (fmtNum : ν → GoString) (unmarshal : Unmarshal ν) (options : Options)
    (ctx : Context ν) (path : GoString) (m : Tree ν) (scopeKeys : List GoString)
    (l : Locale ν) (v : Value ν)
    (hReach : Reachable unmarshal options ctx)
    (hscope : (lookup "scope".toList m = none ∧ scopeKeys = [])
      ∨ ∃ s, s ≠ [] ∧ lookup "scope".toList m = some (.str s)
          ∧ scopeKeys = Split s ctx.options.Separator)
    (hlocale : (lookup "locale".toList m = none ∧ l = ctx.currentLocale)
      ∨ (lookup "locale".toList m = some (.str l.locale) ∧ l ∈ ctx.locales ∧ l.locale ≠ []))
    (hWalk : Resolves (.object l.data) (scopeKeys ++ Split path ctx.options.Separator) v) :
    T fmtNum ctx path [.optionsMap (some m)]
      = .ok (m.foldl (fun val e => ReplaceAll val (placeholder e.1) (e.2.render fmtNum))
          (v.render fmtNum)) := by
  rw [T_map_walk fmtNum hReach.inv path m scopeKeys l hscope hlocale,
    T.descend_of_Resolves hWalk]
  simp only [T.substitute_eq_foldl]

theorem T_reserved_keys_witness :
    Reachable (testUnmarshal [reservedDoc]) enOnlyOptions (enOnlyCtx reservedDoc)
      ∧ lookup "scope".toList
          ([("scope".toList, .str "a".toList), ("locale".toList, .str "en".toList)] : Tree Nat)
        = some (.str "a".toList)
      ∧ lookup "locale".toList
          ([("scope".toList, .str "a".toList), ("locale".toList, .str "en".toList)] : Tree Nat)
        = some (.str "en".toList)
      ∧ Resolves (.object reservedDoc)
          (Split "a".toList (enOnlyCtx reservedDoc).options.Separator
            ++ Split "b".toList (enOnlyCtx reservedDoc).options.Separator)
          (.str "\x7b\x7bscope\x7d\x7d-\x7b\x7blocale\x7d\x7d".toList)
      ∧ T noNum (enOnlyCtx reservedDoc) "b".toList
          [.optionsMap (some [("scope".toList, .str "a".toList),
            ("locale".toList, .str "en".toList)])] = .ok "a-en".toList :=
  have hReach : Reachable (testUnmarshal [reservedDoc]) enOnlyOptions (enOnlyCtx reservedDoc) :=
    .new (by rfl)
  have hWalk : Resolves (.object reservedDoc)
      (Split "a".toList (enOnlyCtx reservedDoc).options.Separator
        ++ Split "b".toList (enOnlyCtx reservedDoc).options.Separator)
      (.str "\x7b\x7bscope\x7d\x7d-\x7b\x7blocale\x7d\x7d".toList) :=
    .step rfl (.step rfl (.refl _))
  ⟨hReach, rfl, rfl, hWalk,
    T_reserved_keys noNum (testUnmarshal [reservedDoc]) enOnlyOptions (enOnlyCtx reservedDoc)
      "b".toList [("scope".toList, .str "a".toList), ("locale".toList, .str "en".toList)]
      (Split "a".toList (enOnlyCtx reservedDoc).options.Separator)
      { locale := "en".toList, data := reservedDoc }
      (.str "\x7b\x7bscope\x7d\x7d-\x7b\x7blocale\x7d\x7d".toList) hReach
      (.inr ⟨"a".toList, by decide, rfl, rfl⟩)
      (.inr ⟨rfl, List.mem_cons_self _ _, by decide⟩) hWalk⟩

/-! ## Placeholder substitution (C9) -/

/-- C9: in a context built by `New`, let the walk over the current locale's
tree end at a value with rendering `t`, and let the options map have the one
entry `k -> value` with `k` neither `"scope"` nor `"locale"`. Then `T` returns
`strings.ReplaceAll(t, "{{k}}", rendering of value)`, which is `t` with every
occurrence of `{{k}}`, taken without overlap from left to right, replaced by
the rendering of `value`; when `{{k}}` does not occur in `t` the result is
`t`. -/
theorem T_single_substitution (fmtNum : ν → GoString) (unmarshal : Unmarshal ν)
    (options : Options) (ctx : Context ν) (path k : GoString) (value leaf : Value ν)
    (hNew : New unmarshal options = .ok ctx)
    (hk₁ : k ≠ "scope".toList) (hk₂ : k ≠ "locale".toList)
    (hWalk : Resolves (.object ctx.currentLocale.data) (Split path ctx.options.Separator) leaf) :
    T fmtNum ctx path [.optionsMap (some [(k, value)])]
        = .ok (ReplaceAll (leaf.render fmtNum) (placeholder k) (value.render fmtNum))
      ∧ ReplacedAll (placeholder k) (value.render fmtNum) (leaf.render fmtNum)
          (ReplaceAll (leaf.render fmtNum) (placeholder k) (value.render fmtNum))
      ∧ (¬ placeholder k <:+: leaf.render fmtNum →
          T fmtNum ctx path [.optionsMap (some [(k, value)])] = .ok (leaf.render fmtNum)) := by
  have hInv : Inv ctx := (New_ok hNew).1
  have hro : T.readOptions ctx.options.Separator (Split path ctx.options.Separator)
      ctx.currentLocale.locale [.optionsMap (some [(k, value)])]
        = .ok (Split path ctx.options.Separator, ctx.currentLocale.locale) := by
    simp only [T.readOptions, lookup, if_neg hk₁, if_neg hk₂]
  have htree : (if ctx.currentLocale.locale ≠ [] then
        T.selectTree ctx.currentLocale.locale ctx.currentLocale.data ctx.locales
      else ctx.currentLocale.data) = ctx.currentLocale.data := by
    split
    · exact T.tree_of_mem hInv hInv.current
    · rfl
  have hT := T_map_eq fmtNum path [(k, value)] hro (Split_ne_nil _ hInv.separator) htree
  rw [T.descend_of_Resolves hWalk] at hT
  simp only [T.substitute] at hT
  refine ⟨hT, ReplaceAll_ReplacedAll _ _ (placeholder_ne_nil k), fun hno => ?_⟩
  rw [hT, ReplaceAll_eq_self _ hno]

theorem T_single_substitution_witness :
    New (testUnmarshal [welcomeDoc]) enOnlyOptions = .ok (enOnlyCtx welcomeDoc)
      ∧ "name".toList ≠ "scope".toList ∧ "name".toList ≠ "locale".toList
      ∧ Resolves (.object (enOnlyCtx welcomeDoc).currentLocale.data)
          (Split "pages.login.welcome".toList (enOnlyCtx welcomeDoc).options.Separator)
          (.str "Welcome, \x7b\x7bname\x7d\x7d!".toList)
      ∧ T noNum (enOnlyCtx welcomeDoc) "pages.login.welcome".toList
          [.optionsMap (some [("name".toList, .str "John".toList)])]
        = .ok "Welcome, John!".toList :=
  have hNew : New (testUnmarshal [welcomeDoc]) enOnlyOptions = .ok (enOnlyCtx welcomeDoc) := by rfl
  have hWalk : Resolves (.object (enOnlyCtx welcomeDoc).currentLocale.data)
      (Split "pages.login.welcome".toList (enOnlyCtx welcomeDoc).options.Separator)
      (.str "Welcome, \x7b\x7bname\x7d\x7d!".toList) :=
    .step rfl (.step rfl (.step rfl (.refl _)))
  ⟨hNew, by decide, by decide, hWalk,
    (T_single_substitution noNum (testUnmarshal [welcomeDoc]) enOnlyOptions (enOnlyCtx welcomeDoc)
      "pages.login.welcome".toList "name".toList (.str "John".toList)
      (.str "Welcome, \x7b\x7bname\x7d\x7d!".toList) hNew (by decide) (by decide) hWalk).1⟩

/-! ## The order of substitution (C10) -/

/-- C10 as stated fails: with the document `{"t": "{{a}}"}` and the options
map `{a: "{{b}}", b: "X"}` visited in the order `a`, `b`, the call `T("t")`
returns `"X"`: the text `{{b}}`, which occurs only in the value written for
`a`, is replaced when `b` is reached, not left verbatim. -/
theorem T_substitution_rescan_counterexample :
    New (testUnmarshal [nestedDoc]) enOnlyOptions = .ok (enOnlyCtx nestedDoc)
      ∧ ¬ placeholder "b".toList <:+: "\x7b\x7ba\x7d\x7d".toList
      ∧ T noNum (enOnlyCtx nestedDoc) "t".toList
          [.optionsMap (some [("a".toList, .str "\x7b\x7bb\x7d\x7d".toList),
            ("b".toList, .str "X".toList)])] = .ok "X".toList
      ∧ T noNum (enOnlyCtx nestedDoc) "t".toList
          [.optionsMap (some [("a".toList, .str "\x7b\x7bb\x7d\x7d".toList),
            ("b".toList, .str "X".toList)])] ≠ .ok "\x7b\x7bb\x7d\x7d".toList :=
  ⟨rfl, by decide, by decide, by decide⟩

/-- C10, amended: the substitution is one `strings.ReplaceAll` pass per entry
of the options map, applied to the running text in the order of iteration.
For a map visited as `pre`, then `a`, then `post`: the passes of `pre` are done
on the rendered leaf before the value of `a` is written, so that value is not
scanned for the keys before it; the pass of `a` replaces the occurrences of
`{{a}}` leftmost first and without overlap and does not look at the text it
writes; the passes of `post` are applied to the text that holds the value of
`a`, so that value is scanned for the keys after it. For a map of the two
entries `a`, `b`: visited as `b`, `a`, with `{{b}}` absent from the rendered
leaf, the result is the leaf with `{{a}}` replaced, and a `{{b}}` inside the
value of `a` is left verbatim; visited as `a`, `b`, the result is that text
with every occurrence of `{{b}}`, those inside the value of `a` included,
replaced by the value of `b`. -/
theorem T_substitution_order (fmtNum : ν → GoString) (unmarshal : Unmarshal ν)
    (options : Options) (ctx : Context ν) (path : GoString) (leaf : Value ν)
    (hNew : New unmarshal options = .ok ctx)
    (hWalk : Resolves (.object ctx.currentLocale.data) (Split path ctx.options.Separator) leaf) :
    (∀ (pre post : Tree ν) (a : GoString) (va : Value ν),
        lookup "scope".toList (pre ++ (a, va) :: post) = none →
        lookup "locale".toList (pre ++ (a, va) :: post) = none →
        T fmtNum ctx path [.optionsMap (some (pre ++ (a, va) :: post))]
            = .ok (post.foldl (substitutePass fmtNum)
                (ReplaceAll (pre.foldl (substitutePass fmtNum) (leaf.render fmtNum))
                  (placeholder a) (va.render fmtNum)))
          ∧ ReplacedAll (placeholder a) (va.render fmtNum)
              (pre.foldl (substitutePass fmtNum) (leaf.render fmtNum))
              (ReplaceAll (pre.foldl (substitutePass fmtNum) (leaf.render fmtNum))
                (placeholder a) (va.render fmtNum)))
    ∧ (∀ (a b : GoString) (va vb : Value ν),
        a ≠ "scope".toList → a ≠ "locale".toList →
        b ≠ "scope".toList → b ≠ "locale".toList →
        (¬ placeholder b <:+: leaf.render fmtNum →
            T fmtNum ctx path [.optionsMap (some [(b, vb), (a, va)])]
              = .ok (ReplaceAll (leaf.render fmtNum) (placeholder a) (va.render fmtNum)))
          ∧ T fmtNum ctx path [.optionsMap (some [(a, va), (b, vb)])]
            = .ok (ReplaceAll
                (ReplaceAll (leaf.render fmtNum) (placeholder a) (va.render fmtNum))
                (placeholder b) (vb.render fmtNum))
          ∧ ReplacedAll (placeholder a) (va.render fmtNum) (leaf.render fmtNum)
              (ReplaceAll (leaf.render fmtNum) (placeholder a) (va.render fmtNum))
          ∧ ReplacedAll (placeholder b) (vb.render fmtNum)
              (ReplaceAll (leaf.render fmtNum) (placeholder a) (va.render fmtNum))
              (ReplaceAll
                (ReplaceAll (leaf.render fmtNum) (placeholder a) (va.render fmtNum))
                (placeholder b) (vb.render fmtNum))) := by
  have hInv : Inv ctx := (New_ok hNew).1
  have hgen : ∀ m : Tree ν, lookup "scope".toList m = none → lookup "locale".toList m = none →
      T fmtNum ctx path [.optionsMap (some m)]
        = .ok (m.foldl (substitutePass fmtNum) (leaf.render fmtNum)) := by
    intro m hs hl
    have hT := T_map_walk fmtNum hInv path m [] ctx.currentLocale
      (.inl ⟨hs, rfl⟩) (.inl ⟨hl, rfl⟩)
    rw [List.nil_append, T.descend_of_Resolves hWalk] at hT
    simp only [T.substitute_eq_passes] at hT
    exact hT
  constructor
  · intro pre post a va hs hl
    refine ⟨?_, ReplaceAll_ReplacedAll _ _ (placeholder_ne_nil a)⟩
    rw [hgen _ hs hl, List.foldl_append, List.foldl_cons]
    rfl
  · intro a b va vb ha₁ ha₂ hb₁ hb₂
    refine ⟨fun hb => ?_, ?_, ReplaceAll_ReplacedAll _ _ (placeholder_ne_nil a),
      ReplaceAll_ReplacedAll _ _ (placeholder_ne_nil b)⟩
    · rw [hgen [(b, vb), (a, va)] (by simp only [lookup, if_neg ha₁, if_neg hb₁])
        (by simp only [lookup, if_neg ha₂, if_neg hb₂])]
      simp only [List.foldl_cons, List.foldl_nil, substitutePass]
      rw [ReplaceAll_eq_self _ hb]
    · rw [hgen [(a, va), (b, vb)] (by simp only [lookup, if_neg ha₁, if_neg hb₁])
        (by simp only [lookup, if_neg ha₂, if_neg hb₂])]
      simp only [List.foldl_cons, List.foldl_nil, substitutePass]

theorem T_substitution_order_witness :
    (New (testUnmarshal [nestedDoc]) enOnlyOptions = .ok (enOnlyCtx nestedDoc)
      ∧ Resolves (.object (enOnlyCtx nestedDoc).currentLocale.data)
          (Split "t".toList (enOnlyCtx nestedDoc).options.Separator)
          (.str "\x7b\x7ba\x7d\x7d".toList)
      ∧ ¬ placeholder "b".toList <:+: "\x7b\x7ba\x7d\x7d".toList
      ∧ T noNum (enOnlyCtx nestedDoc) "t".toList
          [.optionsMap (some [("b".toList, .str "X".toList),
            ("a".toList, .str "\x7b\x7bb\x7d\x7d".toList)])]
        = .ok "\x7b\x7bb\x7d\x7d".toList
      ∧ T noNum (enOnlyCtx nestedDoc) "t".toList
          [.optionsMap (some [("a".toList, .str "\x7b\x7bb\x7d\x7d".toList),
            ("b".toList, .str "X".toList)])]
        = .ok "X".toList)
    ∧ (New (testUnmarshal [tailDoc]) enOnlyOptions = .ok (enOnlyCtx tailDoc)
      ∧ Resolves (.object (enOnlyCtx tailDoc).currentLocale.data)
          (Split "t".toList (enOnlyCtx tailDoc).options.Separator)
          (.str "\x7b\x7ba\x7d\x7d\x7d\x7d".toList)
      ∧ T noNum (enOnlyCtx tailDoc) "t".toList
          [.optionsMap (some ([("b".toList, .str "Y".toList)]
            ++ ("a".toList, .str "\x7b\x7bb\x7d\x7d".toList)
              :: [("b\x7d\x7d".toList, .str "Z".toList)]))]
        = .ok "Z".toList) :=
  have hNew : New (testUnmarshal [nestedDoc]) enOnlyOptions = .ok (enOnlyCtx nestedDoc) := by rfl
  have hWalk : Resolves (.object (enOnlyCtx nestedDoc).currentLocale.data)
      (Split "t".toList (enOnlyCtx nestedDoc).options.Separator)
      (.str "\x7b\x7ba\x7d\x7d".toList) :=
    .step rfl (.refl _)
  have hNew₂ : New (testUnmarshal [tailDoc]) enOnlyOptions = .ok (enOnlyCtx tailDoc) := by rfl
  have hWalk₂ : Resolves (.object (enOnlyCtx tailDoc).currentLocale.data)
      (Split "t".toList (enOnlyCtx tailDoc).options.Separator)
      (.str "\x7b\x7ba\x7d\x7d\x7d\x7d".toList) :=
    .step rfl (.refl _)
  have h := (T_substitution_order noNum (testUnmarshal [nestedDoc]) enOnlyOptions
    (enOnlyCtx nestedDoc) "t".toList (.str "\x7b\x7ba\x7d\x7d".toList) hNew hWalk).2
    "a".toList "b".toList (.str "\x7b\x7bb\x7d\x7d".toList) (.str "X".toList)
    (by decide) (by decide) (by decide) (by decide)
  have h₂ := (T_substitution_order noNum (testUnmarshal [tailDoc]) enOnlyOptions
    (enOnlyCtx tailDoc) "t".toList (.str "\x7b\x7ba\x7d\x7d\x7d\x7d".toList) hNew₂ hWalk₂).1
    [("b".toList, .str "Y".toList)] [("b\x7d\x7d".toList, .str "Z".toList)]
    "a".toList (.str "\x7b\x7bb\x7d\x7d".toList) rfl rfl
  ⟨⟨hNew, hWalk, by decide, h.1 (by decide), h.2.1⟩, ⟨hNew₂, hWalk₂, h₂.1⟩⟩

/-! ## The order of iteration (C11) -/

/-- C11 as stated fails: the result depends on the order in which the map is
visited. With the leaf `"{{a}}"` and the map `{a: "{{b}}", b: "X"}`, the order
`a`, `b` gives `"X"` and the order `b`, `a` gives `"{{b}}"`. With the leaf
`"{{{{b}}}}"` and the map `{a: "X", b: "a"}`, whose values have no brace, the
order `b`, `a` gives `"X"` and the order `a`, `b` gives `"{{a}}"`. -/
theorem T_iteration_order_counterexample :
    (New (testUnmarshal [nestedDoc]) enOnlyOptions = .ok (enOnlyCtx nestedDoc)
      ∧ List.Perm
          ([("a".toList, .str "\x7b\x7bb\x7d\x7d".toList), ("b".toList, .str "X".toList)] : Tree Nat)
          [("b".toList, .str "X".toList), ("a".toList, .str "\x7b\x7bb\x7d\x7d".toList)]
      ∧ T noNum (enOnlyCtx nestedDoc) "t".toList
          [.optionsMap (some [("a".toList, .str "\x7b\x7bb\x7d\x7d".toList),
            ("b".toList, .str "X".toList)])] = .ok "X".toList
      ∧ T noNum (enOnlyCtx nestedDoc) "t".toList
          [.optionsMap (some [("b".toList, .str "X".toList),
            ("a".toList, .str "\x7b\x7bb\x7d\x7d".toList)])] = .ok "\x7b\x7bb\x7d\x7d".toList
      ∧ T noNum (enOnlyCtx nestedDoc) "t".toList
          [.optionsMap (some [("a".toList, .str "\x7b\x7bb\x7d\x7d".toList),
            ("b".toList, .str "X".toList)])]
        ≠ T noNum (enOnlyCtx nestedDoc) "t".toList
          [.optionsMap (some [("b".toList, .str "X".toList),
            ("a".toList, .str "\x7b\x7bb\x7d\x7d".toList)])])
    ∧ (New (testUnmarshal [doubleDoc]) enOnlyOptions = .ok (enOnlyCtx doubleDoc)
      ∧ T noNum (enOnlyCtx doubleDoc) "t".toList
          [.optionsMap (some [("b".toList, .str "a".toList), ("a".toList, .str "X".toList)])]
        = .ok "X".toList
      ∧ T noNum (enOnlyCtx doubleDoc) "t".toList
          [.optionsMap (some [("a".toList, .str "X".toList), ("b".toList, .str "a".toList)])]
        = .ok "\x7b\x7ba\x7d\x7d".toList) :=
  ⟨⟨rfl, List.Perm.swap _ _ _, by decide, by decide, by decide⟩, ⟨rfl, by decide, by decide⟩⟩

/-- C11, amended: in a context built by `New`, let the path resolve to a value
whose rendering is a template of plain pieces (literal text without `{`, and
placeholders `{{k}}` whose keys have no brace), and let the options map have
distinct keys, none of them `scope` or `locale`, no key with a `}` and no
rendered value with a `{`. Then `T` returns the template with every
placeholder whose key is in the map replaced by the rendering of that key's
value, and the result is the same for every order in which the entries are
visited. -/
theorem T_iteration_order_independent (fmtNum : ν → GoString) (unmarshal : Unmarshal ν)
    (options : Options) (ctx : Context ν) (path : GoString) (leaf : Value ν)
    (segs : List Segment) (m m' : Tree ν)
    (hNew : New unmarshal options = .ok ctx)
    (hWalk : Resolves (.object ctx.currentLocale.data) (Split path ctx.options.Separator) leaf)
    (hleaf : leaf.render fmtNum = renderSegments segs)
    (hplain : ∀ seg ∈ segs, seg.Plain)
    (hscope : lookup "scope".toList m = none) (hlocale : lookup "locale".toList m = none)
    (hm : ∀ e ∈ m, '\x7d' ∉ e.1 ∧ '\x7b' ∉ e.2.render fmtNum)
    (hnd : (m.map Prod.fst).Nodup) (hperm : m.Perm m') :
    T fmtNum ctx path [.optionsMap (some m)]
        = .ok (renderSegments (segs.map (Segment.fill fmtNum m)))
      ∧ T fmtNum ctx path [.optionsMap (some m')] = T fmtNum ctx path [.optionsMap (some m)] := by
  have hInv : Inv ctx := (New_ok hNew).1
  have hT := T_map_walk fmtNum hInv path m [] ctx.currentLocale
    (.inl ⟨hscope, rfl⟩) (.inl ⟨hlocale, rfl⟩)
  have hT' := T_map_walk fmtNum hInv path m' [] ctx.currentLocale
    (.inl ⟨(lookup_perm hperm hnd _).symm.trans hscope, rfl⟩)
    (.inl ⟨(lookup_perm hperm hnd _).symm.trans hlocale, rfl⟩)
  rw [List.nil_append, T.descend_of_Resolves hWalk] at hT hT'
  simp only [hleaf] at hT hT'
  rw [T.substitute_renderSegments fmtNum m segs hplain hm] at hT
  rw [T.substitute_renderSegments fmtNum m' segs hplain
    (fun e he => hm e (hperm.mem_iff.mpr he))] at hT'
  refine ⟨hT, ?_⟩
  rw [hT, hT']
  congr 2
  apply List.map_congr_left
  intro seg _
  cases seg with
  | lit text => rfl
  | hole k => simp only [Segment.fill, lookup_perm hperm hnd k]

theorem T_iteration_order_independent_witness :
    New (testUnmarshal [pairDoc]) enOnlyOptions = .ok (enOnlyCtx pairDoc)
      ∧ Resolves (.object (enOnlyCtx pairDoc).currentLocale.data)
          (Split "t".toList (enOnlyCtx pairDoc).options.Separator)
          (.str "\x7b\x7ba\x7d\x7d-\x7b\x7bb\x7d\x7d".toList)
      ∧ Value.render noNum (.str "\x7b\x7ba\x7d\x7d-\x7b\x7bb\x7d\x7d".toList)
        = renderSegments [.hole "a".toList, .lit "-".toList, .hole "b".toList]
      ∧ List.Perm
          ([("a".toList, .str "X".toList), ("b".toList, .str "Y".toList)] : Tree Nat)
          [("b".toList, .str "Y".toList), ("a".toList, .str "X".toList)]
      ∧ T noNum (enOnlyCtx pairDoc) "t".toList
          [.optionsMap (some [("a".toList, .str "X".toList), ("b".toList, .str "Y".toList)])]
        = .ok "X-Y".toList
      ∧ T noNum (enOnlyCtx pairDoc) "t".toList
          [.optionsMap (some [("b".toList, .str "Y".toList), ("a".toList, .str "X".toList)])]
        = T noNum (enOnlyCtx pairDoc) "t".toList
          [.optionsMap (some [("a".toList, .str "X".toList), ("b".toList, .str "Y".toList)])] :=
  have hNew : New (testUnmarshal [pairDoc]) enOnlyOptions = .ok (enOnlyCtx pairDoc) := by rfl
  have hWalk : Resolves (.object (enOnlyCtx pairDoc).currentLocale.data)
      (Split "t".toList (enOnlyCtx pairDoc).options.Separator)
      (.str "\x7b\x7ba\x7d\x7d-\x7b\x7bb\x7d\x7d".toList) :=
    .step rfl (.refl _)
  have hplain : ∀ seg ∈ [Segment.hole "a".toList, .lit "-".toList, .hole "b".toList],
      seg.Plain := by
    intro seg hseg
    simp only [List.mem_cons, List.mem_singleton, List.not_mem_nil, or_false] at hseg
    rcases hseg with rfl | rfl | rfl
    · exact ⟨by decide, by decide⟩
    · exact (by decide : '\x7b' ∉ "-".toList)
    · exact ⟨by decide, by decide⟩
  have hm : ∀ e ∈ ([("a".toList, .str "X".toList), ("b".toList, .str "Y".toList)] : Tree Nat),
      '\x7d' ∉ e.1 ∧ '\x7b' ∉ e.2.render noNum := by
    intro e he
    simp only [List.mem_cons, List.mem_singleton, List.not_mem_nil, or_false] at he
    rcases he with rfl | rfl
    · exact ⟨by decide, by decide⟩
    · exact ⟨by decide, by decide⟩
  have hperm : List.Perm
      ([("a".toList, .str "X".toList), ("b".toList, .str "Y".toList)] : Tree Nat)
      [("b".toList, .str "Y".toList), ("a".toList, .str "X".toList)] :=
    List.Perm.swap _ _ _
  have h := T_iteration_order_independent noNum (testUnmarshal [pairDoc]) enOnlyOptions
    (enOnlyCtx pairDoc) "t".toList (.str "\x7b\x7ba\x7d\x7d-\x7b\x7bb\x7d\x7d".toList)
    [.hole "a".toList, .lit "-".toList, .hole "b".toList]
    [("a".toList, .str "X".toList), ("b".toList, .str "Y".toList)]
    [("b".toList, .str "Y".toList), ("a".toList, .str "X".toList)]
    hNew hWalk rfl hplain rfl rfl hm (by decide) hperm
  ⟨hNew, hWalk, rfl, hperm, h.1, h.2⟩

/-! ## Construction (C12 - C14) -/

/-- C12: with the decoder a fallible function, `New` returns an error exactly
when some locale's document fails to decode, or an identifier occurs twice in
the list, or no entry carries the default identifier; in every other case,
and only then, it returns a context. -/
theorem New_error_iff (unmarshal : Unmarshal ν) (options : Options) :
    ((∃ err, New unmarshal options = .error err) ↔
      ((∃ e ∈ options.Locales, ∃ msg, unmarshal e.File = .error msg)
        ∨ ¬ (options.Locales.map (fun e => e.Locale)).Nodup
        ∨ options.DefaultLocale ∉ options.Locales.map (fun e => e.Locale)))
    ∧ ((∃ ctx, New unmarshal options = .ok ctx) ↔
      ¬ ((∃ e ∈ options.Locales, ∃ msg, unmarshal e.File = .error msg)
        ∨ ¬ (options.Locales.map (fun e => e.Locale)).Nodup
        ∨ options.DefaultLocale ∉ options.Locales.map (fun e => e.Locale))) := by
  have hok := New_isOk_iff unmarshal options
  have hcond : ((∀ e ∈ options.Locales, ∃ t, unmarshal e.File = .ok t)
        ∧ (options.Locales.map (fun e => e.Locale)).Nodup
        ∧ options.DefaultLocale ∈ options.Locales.map (fun e => e.Locale)) ↔
      ¬ ((∃ e ∈ options.Locales, ∃ msg, unmarshal e.File = .error msg)
        ∨ ¬ (options.Locales.map (fun e => e.Locale)).Nodup
        ∨ options.DefaultLocale ∉ options.Locales.map (fun e => e.Locale)) := by
    constructor
    · rintro ⟨h1, h2, h3⟩ (⟨e, he, msg, hmsg⟩ | h | h)
      · obtain ⟨t, ht⟩ := h1 e he
        rw [ht] at hmsg
        cases hmsg
      · exact h h2
      · exact h h3
    · intro h
      refine ⟨fun e he => ?_, ?_, ?_⟩
      · cases hu : unmarshal e.File with
        | ok t => exact ⟨t, rfl⟩
        | error msg => exact absurd (Or.inl ⟨e, he, msg, hu⟩) h
      · by_contra hn
        exact h (Or.inr (Or.inl hn))
      · by_contra hn
        exact h (Or.inr (Or.inr hn))
  have herr : (∃ err, New unmarshal options = .error err) ↔
      ¬ ∃ ctx, New unmarshal options = .ok ctx := by
    cases hN : New unmarshal options with
    | error err => simp
    | ok ctx => simp
  refine ⟨?_, hok.trans hcond⟩
  rw [herr, hok, hcond, not_not]

/-- C13: when `New` succeeds, `CurrentLocale()` is the default identifier and
the cursor holds the decoded document `t` of the one entry of the options
whose identifier is the default; `T` without options resolves against `t`: it
returns the rendering of the value the walk ends at, or the missing-translation
diagnostic naming the default locale. -/
theorem New_cursor_is_default (fmtNum : ν → GoString) (unmarshal : Unmarshal ν)
    (options : Options) (ctx : Context ν) (hNew : New unmarshal options = .ok ctx) :
    CurrentLocale ctx = options.DefaultLocale
      ∧ ∃ e ∈ options.Locales, ∃ t : Tree ν,
          e.Locale = options.DefaultLocale
          ∧ (∀ e' ∈ options.Locales, e'.Locale = options.DefaultLocale → e' = e)
          ∧ unmarshal e.File = .ok t
          ∧ ctx.currentLocale = { locale := options.DefaultLocale, data := t }
          ∧ ∀ path : GoString,
              (∀ v, Resolves (.object t) (Split path ctx.options.Separator) v →
                T fmtNum ctx path [] = .ok (v.render fmtNum))
              ∧ (MissingKey (.object t) (Split path ctx.options.Separator) →
                T fmtNum ctx path [] = .ok (missingTranslation options.DefaultLocale path)) := by
  obtain ⟨hInv, hcur, _, _⟩ := New_ok hNew
  obtain ⟨_, hnd, hmem⟩ := (New_isOk_iff unmarshal options).mp ⟨ctx, hNew⟩
  have hdata : ∃ e ∈ options.Locales, e.Locale = options.DefaultLocale
      ∧ unmarshal e.File = .ok ctx.currentLocale.data := by
    unfold New at hNew
    cases hl : New.loop unmarshal options.DefaultLocale options.Locales []
        { locale := [], data := [] } [] with
    | error err => rw [hl] at hNew; cases hNew
    | ok r =>
      obtain ⟨Ls, cur, av⟩ := r
      rw [hl] at hNew
      simp only at hNew
      by_cases hd : options.DefaultLocale ∉ av
      · rw [if_pos hd] at hNew; cases hNew
      · rw [if_neg hd] at hNew
        have := New.loop_current unmarshal options.DefaultLocale options.Locales _ _ _ _ _ _ _ hl
          (fun e he => he) (fun hx => absurd hx (List.not_mem_nil _)) (not_not.mp hd)
        cases hNew
        exact this
  obtain ⟨e, he, heq, hu⟩ := hdata
  refine ⟨hcur, e, he, ctx.currentLocale.data, heq, ?_, hu, ?_, fun path => ⟨fun v hv => ?_, fun hm => ?_⟩⟩
  · intro e' he' heq'
    exact List.inj_on_of_nodup_map hnd he' he (heq'.trans heq.symm)
  · rw [← hcur]
  · rw [T_nil_eq fmtNum hInv, T.descend_of_Resolves hv]
  · rw [T_nil_eq fmtNum hInv, T.descend_of_MissingKey hm, hcur]

theorem New_cursor_is_default_witness :
    New (testUnmarshal [enData, trData]) testOptions = .ok testCtx
      ∧ CurrentLocale testCtx = "en".toList
      ∧ ∃ e ∈ testOptions.Locales, ∃ t : Tree Nat,
          e.Locale = testOptions.DefaultLocale
          ∧ (∀ e' ∈ testOptions.Locales, e'.Locale = testOptions.DefaultLocale → e' = e)
          ∧ testUnmarshal [enData, trData] e.File = .ok t
          ∧ testCtx.currentLocale = { locale := testOptions.DefaultLocale, data := t }
          ∧ ∀ path : GoString,
              (∀ v, Resolves (.object t) (Split path testCtx.options.Separator) v →
                T noNum testCtx path [] = .ok (v.render noNum))
              ∧ (MissingKey (.object t) (Split path testCtx.options.Separator) →
                T noNum testCtx path [] = .ok (missingTranslation testOptions.DefaultLocale path)) :=
  have hNew : New (testUnmarshal [enData, trData]) testOptions = .ok testCtx := by rfl
  ⟨hNew, New_cursor_is_default noNum (testUnmarshal [enData, trData]) testOptions testCtx hNew⟩

/-- C14: when every document decodes and some identifier occurs more than once
in the list, `New` returns the error
`"locale '<id>' is defined more than once"`, where `<id>` is the identifier
of the first entry that repeats an identifier given before it; the default
locale plays no part. -/
theorem New_duplicate_error (unmarshal : Unmarshal ν) (options : Options)
    (hparse : ∀ e ∈ options.Locales, ∃ t, unmarshal e.File = .ok t)
    (hdup : ¬ (options.Locales.map (fun e => e.Locale)).Nodup) :
    ∃ pre e post, options.Locales = pre ++ e :: post
      ∧ (pre.map (fun e => e.Locale)).Nodup
      ∧ e.Locale ∈ pre.map (fun e => e.Locale)
      ∧ New unmarshal options
        = .error ("locale '".toList ++ e.Locale ++ "' is defined more than once".toList) := by
  obtain ⟨pre, e, post, h1, h2, h3⟩ := exists_first_repeat (fun e : LocaleOptions => e.Locale)
    options.Locales hdup
  refine ⟨pre, e, post, h1, h2, h3, ?_⟩
  have hpre : ∀ e' ∈ pre, ∃ t, unmarshal e'.File = .ok t :=
    fun e' he' => hparse e' (by rw [h1]; exact List.mem_append_left _ he')
  obtain ⟨t, ht⟩ := hparse e (by rw [h1]; simp)
  obtain ⟨Ls', cur', hloop⟩ := New.loop_append unmarshal options.DefaultLocale (e :: post) pre []
    { locale := [], data := [] } [] hpre (by simpa using h2)
  unfold New
  rw [h1, hloop, New.loop_cons_dup unmarshal _ e post Ls' cur' _ ht (by simpa using h3)]

theorem New_duplicate_error_witness :
    (∀ e ∈ duplicateOptions.Locales, ∃ t, testUnmarshal [enData, trData] e.File = .ok t)
      ∧ ¬ (duplicateOptions.Locales.map (fun e => e.Locale)).Nodup
      ∧ New (testUnmarshal [enData, trData]) duplicateOptions
        = .error "locale 'en' is defined more than once".toList
      ∧ ∃ pre e post, duplicateOptions.Locales = pre ++ e :: post
        ∧ (pre.map (fun e => e.Locale)).Nodup
        ∧ e.Locale ∈ pre.map (fun e => e.Locale)
        ∧ New (testUnmarshal [enData, trData]) duplicateOptions
          = .error ("locale '".toList ++ e.Locale ++ "' is defined more than once".toList) :=
  have hparse : ∀ e ∈ duplicateOptions.Locales,
      ∃ t, testUnmarshal [enData, trData] e.File = .ok t := by
    intro e he
    have he' : e ∈ [({ Locale := "tr".toList, File := [1] } : LocaleOptions),
        { Locale := "en".toList, File := [0] }, { Locale := "en".toList, File := [0] },
        { Locale := "tr".toList, File := [1] }] := he
    simp only [List.mem_cons, List.mem_singleton, List.not_mem_nil, or_false] at he'
    rcases he' with rfl | rfl | rfl | rfl <;> exact ⟨_, rfl⟩
  have hdup : ¬ (duplicateOptions.Locales.map (fun e => e.Locale)).Nodup := by decide
  ⟨hparse, hdup, rfl,
    New_duplicate_error (testUnmarshal [enData, trData]) duplicateOptions hparse hdup⟩

/-! ## Paths as joined keys, and the empty path (C15, C16) -/

/-- C15 as stated fails: with the separator `"aa"` and the document
`{"xa": {"y": "V"}}`, the keys `xa`, `y` do not contain the separator and
identify the leaf `"V"`, yet their joined form `"xaaay"` splits into `x`,
`ay`, and `T` reports a missing translation. -/
theorem T_joined_keys_counterexample :
    New (testUnmarshal [borderDoc]) borderOptions = .ok borderCtx
      ∧ borderCtx.options.Separator ≠ []
      ∧ (∀ k ∈ ["xa".toList, "y".toList], ¬ borderCtx.options.Separator <:+: k)
      ∧ Resolves (.object borderCtx.currentLocale.data) ["xa".toList, "y".toList]
          (.str "V".toList)
      ∧ Join ["xa".toList, "y".toList] borderCtx.options.Separator = "xaaay".toList
      ∧ T noNum borderCtx (Join ["xa".toList, "y".toList] borderCtx.options.Separator) []
        = .ok "missing translation for path 'en.xaaay'".toList
      ∧ T noNum borderCtx (Join ["xa".toList, "y".toList] borderCtx.options.Separator) []
        ≠ .ok (Value.render noNum (.str "V".toList)) :=
  ⟨rfl, by decide, by decide, .step rfl (.step rfl (.refl _)), rfl, by decide, by decide⟩

/-- C15, amended: in a context built by `New` whose separator has no border
(every one-character separator, such as `"."` or `"/"`), for every non-empty
list of keys none of which contains the separator: the joined path splits back
into the keys, and if the keys lead from the root of the current locale's tree
to a value `v`, `T(joined path)` without options returns the rendering of
`v`. -/
theorem T_joined_keys (fmtNum : ν → GoString) (unmarshal : Unmarshal ν) (options : Options)
    (ctx : Context ν) (keys : List GoString) (v : Value ν)
    (hNew : New unmarshal options = .ok ctx) (hub : Unbordered ctx.options.Separator)
    (hkeys : keys ≠ []) (hfree : ∀ k ∈ keys, ¬ ctx.options.Separator <:+: k)
    (hWalk : Resolves (.object ctx.currentLocale.data) keys v) :
    Split (Join keys ctx.options.Separator) ctx.options.Separator = keys
      ∧ T fmtNum ctx (Join keys ctx.options.Separator) [] = .ok (v.render fmtNum) := by
  have hInv : Inv ctx := (New_ok hNew).1
  have hsplit := Split_Join hInv.separator hub keys hkeys hfree
  refine ⟨hsplit, ?_⟩
  rw [T_nil_eq fmtNum hInv, hsplit, T.descend_of_Resolves hWalk]

theorem T_joined_keys_witness :
    New (testUnmarshal [enData]) slashOptions = .ok slashCtx
      ∧ Unbordered slashCtx.options.Separator
      ∧ (∀ k ∈ ["pages".toList, "login".toList, "buttons".toList, "login".toList],
          ¬ slashCtx.options.Separator <:+: k)
      ∧ Resolves (.object slashCtx.currentLocale.data)
          ["pages".toList, "login".toList, "buttons".toList, "login".toList] (.str "Login".toList)
      ∧ Join ["pages".toList, "login".toList, "buttons".toList, "login".toList]
          slashCtx.options.Separator = "pages/login/buttons/login".toList
      ∧ T noNum slashCtx "pages/login/buttons/login".toList [] = .ok "Login".toList :=
  have hNew : New (testUnmarshal [enData]) slashOptions = .ok slashCtx := by rfl
  have hub : Unbordered slashCtx.options.Separator := Unbordered_singleton '/'
  have hfree : ∀ k ∈ ["pages".toList, "login".toList, "buttons".toList, "login".toList],
      ¬ slashCtx.options.Separator <:+: k := by decide
  have hWalk : Resolves (.object slashCtx.currentLocale.data)
      ["pages".toList, "login".toList, "buttons".toList, "login".toList] (.str "Login".toList) :=
    .step rfl (.step rfl (.step rfl (.step rfl (.refl _))))
  ⟨hNew, hub, hfree, hWalk, rfl,
    (T_joined_keys noNum (testUnmarshal [enData]) slashOptions slashCtx
      ["pages".toList, "login".toList, "buttons".toList, "login".toList] (.str "Login".toList)
      hNew hub (by decide) hfree hWalk).2⟩

/-- C16 (the code departs from the claim): in the context of `TestTranslate`,
`T("")` without options does not return `"invalid path ''"`. The call
`strings.Split("", ".")` gives the one segment `""`, so the test
`len(keys) == 0` fails, the tree is walked with the key `""`, and the result
is `"missing translation for path 'en.'"`; with the document `{"": "root"}`
the result is the leaf `"root"`. -/
theorem T_empty_path :
    (New (testUnmarshal [enData, trData]) testOptions = .ok testCtx
      ∧ Split [] testCtx.options.Separator = [[]]
      ∧ T noNum testCtx [] [] = .ok "missing translation for path 'en.'".toList
      ∧ T noNum testCtx [] [] ≠ .ok "invalid path ''".toList)
    ∧ (New (testUnmarshal [emptyKeyDoc]) enOnlyOptions = .ok (enOnlyCtx emptyKeyDoc)
      ∧ T noNum (enOnlyCtx emptyKeyDoc) [] [] = .ok "root".toList) :=
  ⟨⟨rfl, rfl, by decide, by decide⟩, ⟨rfl, by decide⟩⟩

/-! ## The cursor (C17 - C20) -/

/-- C17: in every context reachable from a successful `New` by `ChangeLocale`
calls, successful or failing, the current identifier is one of the registered
identifiers, the cursor is a registry entry, so its tree is the tree of the
entry with that identifier; and the registry entries, the list of available
identifiers and the options (the separator among them) are those `New`
returned. -/
theorem Reachable_cursor_invariant (unmarshal : Unmarshal ν) (options : Options)
    (ctx₀ ctx : Context ν) (hNew : New unmarshal options = .ok ctx₀)
    (hReach : Reachable unmarshal options ctx) :
    CurrentLocale ctx ∈ ctx.locales.map (fun l => l.locale)
      ∧ CurrentLocale ctx ∈ ctx.availableLocales
      ∧ ctx.currentLocale ∈ ctx.locales
      ∧ (∀ l ∈ ctx.locales, l.locale = CurrentLocale ctx → ctx.currentLocale.data = l.data)
      ∧ ctx.locales = ctx₀.locales
      ∧ ctx.availableLocales = ctx₀.availableLocales
      ∧ ctx.options = ctx₀.options
      ∧ ctx.options.Separator = ctx₀.options.Separator := by
  have hInv : Inv ctx := hReach.inv
  have hframe : ctx.locales = ctx₀.locales ∧ ctx.availableLocales = ctx₀.availableLocales
      ∧ ctx.options = ctx₀.options := by
    induction hReach with
    | new h =>
      rw [hNew] at h
      injection h with h
      subst h
      exact ⟨rfl, rfl, rfl⟩
    | @change c locale hc ih =>
      have ih' := ih hc.inv
      rcases ChangeLocale_ctx c locale with h1 | ⟨l, _, _, h1⟩
      · rw [h1]; exact ih'
      · rw [h1]; exact ih'
  have hmem : CurrentLocale ctx ∈ ctx.locales.map (fun l => l.locale) :=
    List.mem_map_of_mem (fun l => l.locale) hInv.current
  refine ⟨hmem, hInv.available ▸ hmem, hInv.current, ?_, hframe.1, hframe.2.1, hframe.2.2,
    by rw [hframe.2.2]⟩
  intro l hl heq
  rw [hInv.entry_unique hl hInv.current heq]

theorem Reachable_cursor_invariant_witness :
    New (testUnmarshal [enData, trData]) testOptions = .ok testCtx
      ∧ Reachable (testUnmarshal [enData, trData]) testOptions
          (ChangeLocale (ChangeLocale testCtx "tr".toList).ctx "fr".toList).ctx
      ∧ CurrentLocale (ChangeLocale (ChangeLocale testCtx "tr".toList).ctx "fr".toList).ctx
          = "tr".toList
      ∧ (ChangeLocale (ChangeLocale testCtx "tr".toList).ctx "fr".toList).ctx.currentLocale
          ∈ (ChangeLocale (ChangeLocale testCtx "tr".toList).ctx "fr".toList).ctx.locales
      ∧ (ChangeLocale (ChangeLocale testCtx "tr".toList).ctx "fr".toList).ctx.locales
          = testCtx.locales :=
  have hNew : New (testUnmarshal [enData, trData]) testOptions = .ok testCtx := by rfl
  have hReach : Reachable (testUnmarshal [enData, trData]) testOptions
      (ChangeLocale (ChangeLocale testCtx "tr".toList).ctx "fr".toList).ctx :=
    .change _ (.change _ (.new hNew))
  have h := Reachable_cursor_invariant (testUnmarshal [enData, trData]) testOptions testCtx
    (ChangeLocale (ChangeLocale testCtx "tr".toList).ctx "fr".toList).ctx hNew hReach
  ⟨hNew, hReach, rfl, h.2.2.1, h.2.2.2.2.1⟩

/-- C18 as stated fails for the hook: in the context `New` builds in
`TestTranslate` no callback is set (`New` never sets one), and the change from
`en` to the registered locale `tr` succeeds without a single hook call. -/
theorem ChangeLocale_hook_counterexample :
    New (testUnmarshal [enData, trData]) testOptions = .ok testCtx
      ∧ "tr".toList ∈ testCtx.availableLocales
      ∧ "tr".toList ≠ CurrentLocale testCtx
      ∧ (ChangeLocale testCtx "tr".toList).err = none
      ∧ CurrentLocale (ChangeLocale testCtx "tr".toList).ctx = "tr".toList
      ∧ (ChangeLocale testCtx "tr".toList).hookCalls = []
      ∧ (ChangeLocale testCtx "tr".toList).hookCalls ≠ ["tr".toList] :=
  ⟨rfl, by decide, by decide, rfl, rfl, rfl, by decide⟩

/-- C18, amended: in every context that satisfies the registry invariant (as
every reachable context does), with or without a callback set:
`ChangeLocale` with the current identifier returns no error, leaves the
context as it is and calls no hook; `ChangeLocale` with the identifier of
another registry entry `l` returns no error, moves the cursor to `l`, and calls
the hook exactly once with the new identifier if a callback is set, and not at
all if none is set. -/
theorem ChangeLocale_hook (ctx : Context ν) (hInv : Inv ctx) :
    ((ChangeLocale ctx (CurrentLocale ctx)).err = none
      ∧ (ChangeLocale ctx (CurrentLocale ctx)).ctx = ctx
      ∧ (ChangeLocale ctx (CurrentLocale ctx)).hookCalls = [])
    ∧ ∀ l ∈ ctx.locales, l.locale ≠ CurrentLocale ctx →
        (ChangeLocale ctx l.locale).err = none
        ∧ (ChangeLocale ctx l.locale).ctx = { ctx with currentLocale := l }
        ∧ (ctx.onLocaleChange = true → (ChangeLocale ctx l.locale).hookCalls = [l.locale])
        ∧ (ctx.onLocaleChange = false → (ChangeLocale ctx l.locale).hookCalls = []) := by
  constructor
  · have hav : CurrentLocale ctx ∈ ctx.availableLocales := by
      rw [hInv.available]
      exact List.mem_map_of_mem (fun l => l.locale) hInv.current
    have hres : ChangeLocale ctx (CurrentLocale ctx)
        = { ctx := ctx, err := none, hookCalls := [] } := by
      unfold ChangeLocale
      rw [if_neg (not_not.mpr hav),
        if_pos (show ctx.currentLocale.locale = CurrentLocale ctx from rfl)]
    rw [hres]
    exact ⟨rfl, rfl, rfl⟩
  · intro l hl hne
    have hav : l.locale ∈ ctx.availableLocales := by
      rw [hInv.available]
      exact List.mem_map_of_mem (fun l => l.locale) hl
    have hres : ChangeLocale ctx l.locale
        = { ctx := { ctx with currentLocale := l }
            err := none
            hookCalls := if ctx.onLocaleChange then [l.locale] else [] } := by
      unfold ChangeLocale
      rw [if_neg (not_not.mpr hav), if_neg (fun h => hne h.symm),
        ChangeLocale.scan_mem ctx _ _ (hInv.available ▸ hInv.nodup) hl]
    rw [hres]
    refine ⟨rfl, rfl, fun h => ?_, fun h => ?_⟩
    · simp only [h, if_true]
    · simp only [h, Bool.false_eq_true, if_false]

theorem ChangeLocale_hook_witness :
    Inv hookedCtx
      ∧ hookedCtx.onLocaleChange = true
      ∧ ({ locale := "tr".toList, data := trData } : Locale Nat) ∈ hookedCtx.locales
      ∧ "tr".toList ≠ CurrentLocale hookedCtx
      ∧ (ChangeLocale hookedCtx "en".toList).hookCalls = []
      ∧ (ChangeLocale hookedCtx "tr".toList).err = none
      ∧ (ChangeLocale hookedCtx "tr".toList).hookCalls = ["tr".toList] :=
  have hInv₀ : Inv testCtx :=
    (New_ok (show New (testUnmarshal [enData, trData]) testOptions = .ok testCtx by rfl)).1
  have hInv : Inv hookedCtx :=
    ⟨hInv₀.available, hInv₀.nodup, hInv₀.current, hInv₀.separator⟩
  have hl : ({ locale := "tr".toList, data := trData } : Locale Nat) ∈ hookedCtx.locales :=
    List.mem_cons_of_mem _ (List.mem_cons_self _ _)
  have h := ChangeLocale_hook hookedCtx hInv
  have h₂ := h.2 { locale := "tr".toList, data := trData } hl (by decide)
  ⟨hInv, rfl, hl, by decide, h.1.2.2, h₂.1, h₂.2.2.1 rfl⟩

/-- C19: in every reachable context, for every path and every non-empty
identifier `L` that no registry entry carries, `T(path, {locale: L})` walks
the current locale's tree: when a segment is missing there it returns
`"missing translation for path 'L.<path>'"`, naming the requested locale, and
when the walk ends at a value `v` the result is built from that value: its
rendering, with `{{locale}}` replaced by `L` as for any entry of the map. -/
theorem T_unregistered_locale (fmtNum : ν → GoString) (unmarshal : Unmarshal ν)
    (options : Options) (ctx : Context ν) (path L : GoString)
    (hReach : Reachable unmarshal options ctx) (hL : L ≠ [])
    (hun : ∀ l ∈ ctx.locales, l.locale ≠ L) :
    (MissingKey (.object ctx.currentLocale.data) (Split path ctx.options.Separator) →
        T fmtNum ctx path [.optionsMap (some [("locale".toList, .str L)])]
          = .ok (missingTranslation L path))
      ∧ (∀ v, Resolves (.object ctx.currentLocale.data) (Split path ctx.options.Separator) v →
        T fmtNum ctx path [.optionsMap (some [("locale".toList, .str L)])]
          = .ok (ReplaceAll (v.render fmtNum) (placeholder "locale".toList) L)) := by
  have hInv : Inv ctx := hReach.inv
  have hro : T.readOptions ctx.options.Separator (Split path ctx.options.Separator)
      ctx.currentLocale.locale [.optionsMap (some [("locale".toList, (.str L : Value ν))])]
        = .ok (Split path ctx.options.Separator, L) := by
    simp only [T.readOptions, lookup, if_neg (show "locale".toList ≠ "scope".toList by decide),
      if_pos]
  have htree : (if L ≠ [] then T.selectTree L ctx.currentLocale.data ctx.locales
      else ctx.currentLocale.data) = ctx.currentLocale.data := by
    rw [if_pos hL]
    exact T.selectTree_not_mem _ _ _ hun
  have hT := T_map_eq fmtNum path [("locale".toList, .str L)] hro
    (Split_ne_nil _ hInv.separator) htree
  rw [Join_Split] at hT
  constructor
  · intro hm
    rw [hT, T.descend_of_MissingKey hm]
  · intro v hv
    rw [hT, T.descend_of_Resolves hv]
    simp only [T.substitute, Value.render]

theorem T_unregistered_locale_witness :
    Reachable (testUnmarshal [enData, trData]) testOptions testCtx
      ∧ "fr".toList ≠ []
      ∧ (∀ l ∈ testCtx.locales, l.locale ≠ "fr".toList)
      ∧ T noNum testCtx "pages.login.buttons.logout".toList
          [.optionsMap (some [("locale".toList, .str "fr".toList)])]
        = .ok "missing translation for path 'fr.pages.login.buttons.logout'".toList
      ∧ T noNum testCtx "pages.login.buttons.login".toList
          [.optionsMap (some [("locale".toList, .str "fr".toList)])]
        = .ok "Login".toList :=
  have hReach : Reachable (testUnmarshal [enData, trData]) testOptions testCtx := .new (by rfl)
  have hun : ∀ l ∈ testCtx.locales, l.locale ≠ "fr".toList := by
    intro l hl
    have hl' : l ∈ [({ locale := "en".toList, data := enData } : Locale Nat),
        { locale := "tr".toList, data := trData }] := hl
    simp only [List.mem_cons, List.mem_singleton, List.not_mem_nil, or_false] at hl'
    rcases hl' with rfl | rfl <;> decide
  have h₁ := T_unregistered_locale noNum (testUnmarshal [enData, trData]) testOptions testCtx
    "pages.login.buttons.logout".toList "fr".toList hReach (by decide) hun
  ⟨hReach, by decide, hun, h₁.1 (.step rfl (.step rfl (.step rfl (.here rfl)))), by decide⟩

/-- C20: in every context reachable from a successful `New`, for every
argument, `ChangeLocale` does not return the error
`"locale '<x>' is not defined"`: its error is nil or
`"locale '<x>' is not available"`. Whenever the argument is among the
available identifiers and differs from the current one, the scan finds an
entry with that identifier and the call succeeds with the cursor on it. -/
theorem ChangeLocale_never_not_defined (unmarshal : Unmarshal ν) (options : Options)
    (ctx : Context ν) (x : GoString) (hReach : Reachable unmarshal options ctx) :
    (ChangeLocale ctx x).err ≠ some ("locale '".toList ++ x ++ "' is not defined".toList)
      ∧ ((ChangeLocale ctx x).err = none
        ∨ (ChangeLocale ctx x).err
          = some ("locale '".toList ++ x ++ "' is not available".toList))
      ∧ (x ∈ ctx.availableLocales → x ≠ CurrentLocale ctx →
          ∃ l ∈ ctx.locales, l.locale = x
            ∧ ChangeLocale.scan ctx x ctx.locales = ChangeLocale ctx x
            ∧ (ChangeLocale ctx x).err = none
            ∧ (ChangeLocale ctx x).ctx.currentLocale = l) := by
  have hInv : Inv ctx := hReach.inv
  have hcases : (ChangeLocale ctx x).err = none
      ∨ (ChangeLocale ctx x).err
        = some ("locale '".toList ++ x ++ "' is not available".toList) := by
    by_cases hav : x ∈ ctx.availableLocales
    · left
      rw [hInv.available] at hav
      obtain ⟨l, hl, rfl⟩ := List.mem_map.mp hav
      exact (ChangeLocale_mem hInv hl).1
    · right
      unfold ChangeLocale
      rw [if_pos hav]
  refine ⟨?_, hcases, ?_⟩
  · rcases hcases with h | h
    · rw [h]; exact fun h' => Option.noConfusion h'
    · rw [h]
      intro h'
      have h₁ := Option.some.inj h'
      rw [List.append_assoc, List.append_assoc] at h₁
      have h₂ := List.append_cancel_left (List.append_cancel_left h₁)
      exact absurd h₂ (by decide)
  · intro hav hne
    have hav' := hav
    rw [hInv.available] at hav'
    obtain ⟨l, hl, rfl⟩ := List.mem_map.mp hav'
    obtain ⟨h1, h2⟩ := ChangeLocale_mem hInv hl
    refine ⟨l, hl, rfl, ?_, h1, by rw [h2]⟩
    unfold ChangeLocale
    rw [if_neg (not_not.mpr hav), if_neg (fun h => hne h.symm)]

theorem ChangeLocale_never_not_defined_witness :
    Reachable (testUnmarshal [enData, trData]) testOptions testCtx
      ∧ (ChangeLocale testCtx "tr".toList).err
        ≠ some ("locale '".toList ++ "tr".toList ++ "' is not defined".toList)
      ∧ (ChangeLocale testCtx "fr".toList).err
        ≠ some ("locale '".toList ++ "fr".toList ++ "' is not defined".toList) :=
  have hReach : Reachable (testUnmarshal [enData, trData]) testOptions testCtx := .new (by rfl)
  ⟨hReach,
    (ChangeLocale_never_not_defined (testUnmarshal [enData, trData]) testOptions testCtx
      "tr".toList hReach).1,
    (ChangeLocale_never_not_defined (testUnmarshal [enData, trData]) testOptions testCtx
      "fr".toList hReach).1⟩

end I18nGo
